import Mathlib

/-!
Verification of the anki-cards-generator_CN-ES pipeline.

This file shallowly embeds the parts of the repository that the claims
concern — `generate_sort_key`, `deduplicate_sort_keys` and
`build_notes_from_row` from `src/csv_to_anki.py`, `pinyin_mask` from
`src/anki/hints.py`, the audio filename construction of
`src/audio/generate_audio.py` and the matching predicate of
`find_audio_for_sentence` in `src/anki/api.py` — and proves or refutes
the claims about them.

Conventions of the embedding:
* Python `int` values are Lean `Int`; Python's `%` on a positive modulus
  is `Int.emod`.
* Python dicts holding note fields become association lists
  (`List (String × String)`); assignment to an existing key replaces the
  value in place, otherwise appends.
* `random.randint(0, 9999)` is made an explicit argument of
  `generate_sort_key`; the bound `randomNum ≤ 9999` is carried as a
  hypothesis where needed.
* Fallible Python code (raising `ValueError` / `RuntimeError` /
  `IndexError`) returns `Except` / `Option`; the unbounded `while` loop
  of `deduplicate_sort_keys` runs on explicit fuel, with `none` standing
  for non-termination (a theorem shows the fuel is never exhausted).
-/

namespace AnkiGen

/-! ### Python string and integer primitives -/

/-- Characters treated as whitespace by Python's `str.strip()` and `int()`. -/
def isPySpace (c : Char) : Bool := c.isWhitespace

/-- Strip whitespace from both ends of a character list. -/
def stripChars (l : List Char) : List Char :=
  ((l.dropWhile isPySpace).reverse.dropWhile isPySpace).reverse

/-- Python `s.strip()`. -/
def pyStrip (s : String) : String := String.mk (stripChars s.toList)

/-- Numeric value of an ASCII digit character. -/
def digitVal (c : Char) : Nat := c.toNat - 48

/-- Value of a list of decimal digit characters, most significant first. -/
def digitsVal (l : List Char) : Nat := l.foldl (fun a c => a * 10 + digitVal c) 0

/-- Python `int(s)`, modelled for ASCII decimal strings: surrounding
whitespace is stripped, one optional sign is allowed, and the remainder
must be a non-empty run of ASCII digits.  (Python additionally accepts
non-ASCII decimal digits and embedded underscores; no input considered
in this development uses those.)  `none` models a raised `ValueError`. -/
def pyIntCore (l : List Char) : Option Int :=
  match l with
  | [] => none
  | c :: rest =>
      if c = '+' then
        if rest.isEmpty then none
        else if rest.all Char.isDigit then some (digitsVal rest) else none
      else if c = '-' then
        if rest.isEmpty then none
        else if rest.all Char.isDigit then some (-(digitsVal rest : Int)) else none
      else if (c :: rest).all Char.isDigit then some (digitsVal (c :: rest)) else none

def pyInt (s : String) : Option Int := pyIntCore (stripChars s.toList)

/-- ASCII digit character for a value below 10. -/
def digitChar (n : Nat) : Char := Char.ofNat (48 + n)

/-- Decimal digit characters, on structural fuel (any `fuel > n` gives
the digits of `n`, see `natDigits_eq`). -/
def natDigitsAux : Nat → Nat → List Char
  | 0, _ => []
  | fuel + 1, n =>
      if n < 10 then [digitChar n]
      else natDigitsAux fuel (n / 10) ++ [digitChar (n % 10)]

/-- Decimal digit characters of a natural number, most significant first. -/
def natDigits (n : Nat) : List Char := natDigitsAux (n + 1) n

/-- Splitting a character list at every occurrence of `sep`; the pieces
include empty ones, as for Python `str.split(sep)`. -/
def splitOnChar (sep : Char) : List Char → List (List Char)
  | [] => [[]]
  | c :: rest =>
      if c = sep then [] :: splitOnChar sep rest
      else
        match splitOnChar sep rest with
        | [] => [[c]]
        | t :: ts => (c :: t) :: ts

/-- Python `s.split(sep)` for a one-character separator. -/
def pySplit (s : String) (sep : Char) : List String :=
  (splitOnChar sep s.toList).map String.mk

/-- Python `s.startswith(pre)`. -/
def pyStartsWith (s pre : String) : Bool := pre.toList.isPrefixOf s.toList

/-- Python `sep.join(l)`. -/
def joinWith (sep : String) : List String → String
  | [] => ""
  | [x] => x
  | x :: y :: rest => x ++ sep ++ joinWith sep (y :: rest)

/-- Python `f"{n:0wd}"` for a natural number: decimal digits left-padded
with zeros to width `w`. -/
def natPadded (w : Nat) (n : Nat) : String :=
  String.mk (List.replicate (w - (natDigits n).length) '0' ++ natDigits n)

/-- Python `f"{n:0wd}"` for an integer: for negative numbers the sign
counts toward the width. -/
def intPadded (w : Nat) (n : Int) : String :=
  if n < 0 then "-" ++ natPadded (w - 1) n.natAbs else natPadded w n.toNat

/-- Python `s[a:b]` for `a ≤ b` (slices clamp at the string length). -/
def strSlice (s : String) (a b : Nat) : String :=
  String.mk ((s.toList.drop a).take (b - a))

/-! ### `generate_sort_key` (src/csv_to_anki.py lines 23-68) -/

/-- The `freq_map` dictionary lookup `freq_map.get(freq_name, 99)`. -/
def freqBucketOf (name : String) : Int :=
  if name = "top1k" then 1
  else if name = "top3k" then 3
  else if name = "top5k" then 5
  else if name = "top10k" then 10
  else if name = "rare" then 90
  else 99

/-- The payload `tag.split(":")[1]` of a tag; the default is unreachable
for the tags this is applied to (they contain a colon, so the split has
at least two pieces). -/
def tagPayload (t : String) : String := ((pySplit t ':').get? 1).getD ""

/-- The HSK-parsing loop of `generate_sort_key`: each `hsk:` tag whose
payload parses as an int overwrites the accumulator, an unparsable
payload is swallowed by the `try/except` and leaves it unchanged. -/
def hskLoop : List String → Int → Int
  | [], acc => acc
  | t :: rest, acc =>
      let tg := pyStrip t
      if pyStartsWith tg "hsk:" then
        match pyInt (tagPayload tg) with
        | some v => hskLoop rest v
        | none => hskLoop rest acc
      else hskLoop rest acc

/-- The frequency-bucket loop of `generate_sort_key`: each `freq:` tag
overwrites the accumulator with the `freq_map` lookup of its payload. -/
def freqLoop : List String → Int → Int
  | [], acc => acc
  | t :: rest, acc =>
      let tg := pyStrip t
      if pyStartsWith tg "freq:" then freqLoop rest (freqBucketOf (tagPayload tg))
      else freqLoop rest acc

/-- The HSK level `generate_sort_key` computes from `frecuencia`. -/
def parsedHsk (frecuencia : String) : Int :=
  if frecuencia = "" then 99 else hskLoop (pySplit frecuencia ';') 99

/-- The frequency bucket `generate_sort_key` computes from `frecuencia`. -/
def parsedFreqBucket (frecuencia : String) : Int :=
  if frecuencia = "" then 99 else freqLoop (pySplit frecuencia ';') 99

/-- `generate_sort_key` with the call `random.randint(0, 9999)` made an
explicit argument `randomNum`. -/
def generate_sort_key (frecuencia : String) (randomNum : Nat) : String :=
  intPadded 2 (parsedHsk frecuencia) ++ intPadded 2 (parsedFreqBucket frecuencia)
    ++ natPadded 4 randomNum

/-! ### The note data model

An Anki note as the scripts build and consume it: a JSON object with
`deckName`, `modelName`, a `fields` object (which may be absent in
cache-loaded data, hence `hasFields`), an `allowDuplicate` option, a
tag list, attached audio specs and an opaque remainder `extra` standing
for any further JSON keys that none of the code reads or writes. -/

structure AudioSpec where
  path : String
  filename : String
  fieldNames : List String
deriving DecidableEq, Repr

structure Note where
  deckName : String
  modelName : String
  hasFields : Bool
  fields : List (String × String)
  allowDuplicate : Bool
  tags : List String
  audio : List AudioSpec
  extra : Nat
deriving DecidableEq, Repr

/-- Dict lookup `d[k]` / `k in d` on a fields object. -/
def lookupField : List (String × String) → String → Option String
  | [], _ => none
  | (k, v) :: rest, key => if k = key then some v else lookupField rest key

/-- Dict assignment `d[k] = v`: replaces the value of an existing key in
place, otherwise appends the binding. -/
def setField : List (String × String) → String → String → List (String × String)
  | [], key, val => [(key, val)]
  | (k, v) :: rest, key, val =>
      if k = key then (k, val) :: rest else (k, v) :: setField rest key val

/-- `note["fields"]["SortKey"]` when `"fields" in note and "SortKey" in
note["fields"]`, else `none`. -/
def noteKey (n : Note) : Option String :=
  if n.hasFields then lookupField n.fields "SortKey" else none

/-- `note["fields"]["SortKey"] = k`. -/
def setSortKey (n : Note) (k : String) : Note :=
  { n with fields := setField n.fields "SortKey" k }

/-- The SortKey values present in a note list, in note order. -/
def keysOf (notes : List Note) : List String := notes.filterMap noteKey

/-! ### `deduplicate_sort_keys` (src/csv_to_anki.py lines 341-448) -/

/-- `enumerate(notes)` starting at index `i`. -/
def enumFrom (i : Nat) : List Note → List (Nat × Note)
  | [] => []
  | n :: rest => (i, n) :: enumFrom (i + 1) rest

/-- Appending an index to `sortkey_map[sortkey]`, creating the entry at
the end when the key is new (Python dicts preserve insertion order). -/
def addToMap : List (String × List Nat) → String → Nat → List (String × List Nat)
  | [], k, i => [(k, [i])]
  | (k2, is) :: rest, k, i =>
      if k2 = k then (k2, is ++ [i]) :: rest else (k2, is) :: addToMap rest k i

/-- The first pass of `deduplicate_sort_keys`: group note indices by
SortKey, in order of first appearance. -/
def buildMapAux : List (Nat × Note) → List (String × List Nat) → List (String × List Nat)
  | [], m => m
  | (i, n) :: rest, m =>
      match noteKey n with
      | some k => buildMapAux rest (addToMap m k i)
      | none => buildMapAux rest m

def buildSortkeyMap (notes : List Note) : List (String × List Nat) :=
  buildMapAux (enumFrom 0 notes) []

/-- The exceptions `deduplicate_sort_keys` can raise: `ValueError` from
`int()` on a malformed key slice, or the explicit `RuntimeError` when
all buckets of an HSK prefix are saturated. -/
inductive PyError where
  | valueError
  | runtimeError (msg : String)
deriving DecidableEq, Repr

/-- The `RuntimeError` raised when every bucket of an HSK prefix is full. -/
def saturatedError (hsk : String) : PyError :=
  PyError.runtimeError ("Todos los buckets HSK " ++ hsk ++ " están saturados")

/-- The key probed at frequency `cf` and offset value `off`:
`f"{hsk}{current_freq:02d}{(base_random + offset) % 10000:04d}"`. -/
def mkProbeKey (hsk : String) (cf : Int) (base : Int) (off : Nat) : String :=
  hsk ++ intPadded 2 cf ++ intPadded 4 ((base + (off : Int)) % 10000)

/-- The `while not found_slot` search for one duplicate note, on explicit
fuel.  Returns the assigned key together with the `offset` and
`current_freq` values carried over to the next duplicate of the group;
`none` models non-termination (never reached, see the fuel theorems). -/
def probeLoop (used : List String) (hsk : String) (base : Int) :
    Int → Nat → Nat → Nat → Option (Except PyError (String × Nat × Int))
  | _, _, _, 0 => none
  | currentFreq, offset, attempts, fuel + 1 =>
      let newKey := mkProbeKey hsk currentFreq base offset
      if newKey ∈ used then
        if attempts + 1 > 1000 then
          if currentFreq + 1 > 99 then some (Except.error (saturatedError hsk))
          else probeLoop used hsk base (currentFreq + 1) 0 0 fuel
        else probeLoop used hsk base currentFreq (offset + 1) (attempts + 1) fuel
      else some (Except.ok (newKey, offset + 1, currentFreq))

/-- Fuel amply covering the longest possible probe search (at most 111
buckets of at most 1001 failing probes each). -/
def probeFuel : Nat := 120000

/-- `notes[idx]["fields"]["SortKey"] = k`; the out-of-range case is
unreachable because indices come from `enumerate(notes)`. -/
def updAt (notes : List Note) (idx : Nat) (k : String) : List Note :=
  match notes.get? idx with
  | some n => notes.set idx (setSortKey n k)
  | none => notes

/-- The `for i, note_idx in enumerate(indices[1:], start=1)` loop of one
duplicate group: thread `notes`, the used-key set, the set of
deduplicated indices (added only if absent, as for a Python set) and the
`current_freq` / `offset` state through the group's later indices. -/
def processIndices (hsk : String) (base : Int) :
    List Note → List String → List Nat → Int → Nat → List Nat →
    Option (Except PyError (List Note × List String × List Nat × Int × Nat))
  | notes, used, dd, cf, off, [] => some (Except.ok (notes, used, dd, cf, off))
  | notes, used, dd, cf, off, idx :: rest =>
      match probeLoop used hsk base cf off 0 probeFuel with
      | none => none
      | some (Except.error e) => some (Except.error e)
      | some (Except.ok (newKey, off2, cf2)) =>
          processIndices hsk base (updAt notes idx newKey) (newKey :: used)
            (if idx ∈ dd then dd else dd ++ [idx]) cf2 off2 rest

/-- The `for sortkey, indices in duplicate_groups.items()` loop.  Per
group it parses the key slices (`int(sortkey[4:8])` before
`int(freq)`, either raising `ValueError`) and fixes the group's
duplicates. -/
def processGroups :
    List Note → List String → List Nat → List (String × List Nat) →
    Option (Except PyError (List Note × List String × List Nat))
  | notes, used, dd, [] => some (Except.ok (notes, used, dd))
  | notes, used, dd, (sortkey, indices) :: rest =>
      let hsk := strSlice sortkey 0 2
      let freq := strSlice sortkey 2 4
      match pyInt (strSlice sortkey 4 8) with
      | none => some (Except.error PyError.valueError)
      | some base =>
        match pyInt freq with
        | none => some (Except.error PyError.valueError)
        | some cf0 =>
          match processIndices hsk base notes used dd cf0 1 (indices.drop 1) with
          | none => none
          | some (Except.error e) => some (Except.error e)
          | some (Except.ok (notes2, used2, dd2, _, _)) =>
              processGroups notes2 used2 dd2 rest

/-- Insertion of a natural number into a sorted list. -/
def insertNat (x : Nat) : List Nat → List Nat
  | [] => [x]
  | y :: rest => if x ≤ y then x :: y :: rest else y :: insertNat x rest

/-- `sorted` on a list of natural numbers (insertion sort). -/
def sortNats : List Nat → List Nat
  | [] => []
  | x :: rest => insertNat x (sortNats rest)

/-- `deduplicate_sort_keys`.  `none` models non-termination of the probe
loop (never reached); `Except.error` models a raised exception; on
success the result is the pair of the full note list and the list
`[notes[idx] for idx in sorted(deduplicated_indices)]` (the lookup
`notes[idx]` is total because all indices are in range). -/
def deduplicate_sort_keys (notes : List Note) :
    Option (Except PyError (List Note × List Note)) :=
  let m := buildSortkeyMap notes
  let dupGroups := m.filter (fun p => p.2.length > 1)
  if dupGroups.isEmpty then some (Except.ok (notes, []))
  else
    match processGroups notes (m.map Prod.fst) [] dupGroups with
    | none => none
    | some (Except.error e) => some (Except.error e)
    | some (Except.ok (notes2, _, dd)) =>
        some (Except.ok (notes2, (sortNats dd).filterMap (fun i => notes2.get? i)))

/-! ### Derived notions used to state properties of the deduplication -/

/-- The SortKey of the note at index `j`, when both exist. -/
def keyAt (notes : List Note) (j : Nat) : Option String := (notes.get? j).bind noteKey

/-- How many notes carry the SortKey `k`. -/
def countKey (notes : List Note) (k : String) : Nat := (keysOf notes).count k

/-- The index list stored in the sortkey map under key `k`. -/
def findEntry : List (String × List Nat) → String → Option (List Nat)
  | [], _ => none
  | (k2, is) :: rest, k => if k2 = k then some is else findEntry rest k

def entryLen (m : List (String × List Nat)) (k : String) : Nat :=
  ((findEntry m k).getD []).length

/-- Termination measure of the probe loop: an upper bound on the number
of `while` iterations still possible from frequency `cf` and failure
count `att` (plus one for the current iteration). -/
def probeMeasure (cf : Int) (att : Nat) : Nat :=
  (100 - cf).toNat * 1002 + (1001 - att) + 1

/-- The `n` keys probed consecutively inside bucket `cf` starting at
offset value `off`. -/
def inBucketCands (hsk : String) (base : Int) (cf : Int) (off : Nat) (n : Nat) : List String :=
  (List.range n).map (fun i => mkProbeKey hsk cf base (off + i))

/-- The keys the probe search still tries from frequency `cf`, offset
`off` and failure counter `att`, in probing order: the `1001 - att`
remaining candidates of the current bucket, then 1001 candidates (from
offset 0) in each following bucket up to frequency 99. -/
def candListFrom (hsk : String) (base : Int) (cf : Int) (off : Nat) (att : Nat) : List String :=
  inBucketCands hsk base cf off (1001 - att) ++
    (List.range (99 - cf).toNat).flatMap (fun j => inBucketCands hsk base (cf + 1 + (j : Int)) 0 1001)

/-- All keys the probe search can try from frequency `cf` and offset
`off` with a fresh failure counter. -/
def candList (hsk : String) (base : Int) (cf : Int) (off : Nat) : List String :=
  candListFrom hsk base cf off 0

/-- The availability test the search performs on each candidate. -/
def keyUnused (used : List String) (k : String) : Bool := decide (k ∉ used)

/-- Asserts that every SortKey shared by more than one note has
integer-parsable `[2:4]` and `[4:8]` slices (so the second pass of
`deduplicate_sort_keys` does not raise `ValueError`). -/
def dupKeysParsable (notes : List Note) : Bool :=
  (buildSortkeyMap notes).all (fun p =>
    p.2.length ≤ 1 ||
      ((pyInt (strSlice p.1 2 4)).isSome && (pyInt (strSlice p.1 4 8)).isSome))

/-- Two notes agreeing on everything except possibly the value of the
`SortKey` field. -/
def sameButSortKey (a b : Note) : Prop :=
  b.deckName = a.deckName ∧ b.modelName = a.modelName ∧ b.hasFields = a.hasFields ∧
    b.allowDuplicate = a.allowDuplicate ∧ b.tags = a.tags ∧ b.audio = a.audio ∧
    b.extra = a.extra ∧
    b.fields.filter (fun p => p.1 ≠ "SortKey") = a.fields.filter (fun p => p.1 ≠ "SortKey")

/-- Contribution of an optional key to a count. -/
def optCount (o : Option String) (k : String) : Nat := if o = some k then 1 else 0

/-- What the first pass records for one duplicate group with key `k`:
`idxs` are exactly the indices of the notes carrying `k`, listed in
increasing order. -/
structure GroupOK (notes : List Note) (k : String) (idxs : List Nat) : Prop where
  points : ∀ i ∈ idxs, keyAt notes i = some k
  sorted : List.Sorted (· < ·) idxs
  countEq : countKey notes k = idxs.length
  twoLe : 2 ≤ idxs.length

/-- Invariant of the second pass of `deduplicate_sort_keys`, relating
the original notes `notes0` to the current state (`notes`, used-key set
`used`, deduplicated-index set `dd`) with the groups `rem` still to be
processed. -/
structure DedupInv (notes0 notes : List Note) (used : List String) (dd : List Nat)
    (rem : List (String × List Nat)) : Prop where
  len : notes.length = notes0.length
  covers : ∀ k, k ∈ keysOf notes → k ∈ used
  groups : ∀ k idxs, (k, idxs) ∈ rem → GroupOK notes k idxs
  remKeys : (rem.map Prod.fst).Nodup
  uniqueOut : ∀ k, k ∉ rem.map Prod.fst → countKey notes k ≤ 1
  ddChanged : ∀ j, j ∈ dd ↔ keyAt notes j ≠ keyAt notes0 j
  ddNodup : dd.Nodup
  frame : ∀ j, j ∉ dd → notes.get? j = notes0.get? j
  changedStruct : ∀ j, j ∈ dd → ∃ n k2,
    notes0.get? j = some n ∧ notes.get? j = some (setSortKey n k2)
  ddNotFirst : ∀ j, j ∈ dd → ∃ i, i < j ∧ keyAt notes0 i = keyAt notes0 j
  remFresh : ∀ k idxs, (k, idxs) ∈ rem → ∀ i ∈ idxs, i ∉ dd

/-- What holds of a successful `deduplicate_sort_keys` run: sizes agree,
the returned keys are pairwise distinct, every note keeps all fields but
possibly SortKey, first occurrences keep their SortKey, and the second
component lists exactly the changed notes in ascending index order. -/
structure DedupPost (notes0 out ddNotes : List Note) : Prop where
  len : out.length = notes0.length
  nodupKeys : (keysOf out).Nodup
  frame : ∀ j n, notes0.get? j = some n → ∃ n2, out.get? j = some n2 ∧ sameButSortKey n n2
  firstKept : ∀ j k, keyAt notes0 j = some k →
    (∀ i, i < j → keyAt notes0 i ≠ some k) → keyAt out j = some k
  ddSpec : ddNotes = ((List.range notes0.length).filter
      (fun j => decide (keyAt out j ≠ keyAt notes0 j))).filterMap (fun j => out.get? j)

/-- A minimal note with the given SortKey, used for concrete instances. -/
def mkNote (k : String) : Note :=
  { deckName := "Chino SRS", modelName := "ChinoSRS_SentenceCard", hasFields := true,
    fields := [("SortKey", k)], allowDuplicate := false, tags := [], audio := [], extra := 0 }

/-! ### Spec-side description of `generate_sort_key` parsing (claim C3) -/

/-- The integer value of a tag if it is a parsable `hsk:` tag. -/
def hskTagVal (t : String) : Option Int :=
  if pyStartsWith (pyStrip t) "hsk:" then pyInt (tagPayload (pyStrip t)) else none

/-- The payload of a tag if it is a `freq:` tag. -/
def freqTagName (t : String) : Option String :=
  if pyStartsWith (pyStrip t) "freq:" then some (tagPayload (pyStrip t)) else none

/-- The integer values of the parsable `hsk:` tags of `frecuencia`, in
order; the level the code ends up with is the last of these, or 99. -/
def hskParsedValues (f : String) : List Int :=
  if f = "" then [] else (pySplit f ';').filterMap hskTagVal

/-- The payloads of the `freq:` tags of `frecuencia`, in order; the
bucket the code ends up with is the `freq_map` image of the last of
these, or 99. -/
def freqTagNames (f : String) : List String :=
  if f = "" then [] else (pySplit f ';').filterMap freqTagName

/-! ### Hint text: `pinyin_mask` (src/anki/hints.py lines 8-26) -/

/-- The combining marks occurring in NFKD decompositions of the pinyin
alphabet (grave, acute, macron, caron, diaeresis); models
`unicodedata.combining(c) != 0` on the characters this development
handles. -/
def isCombining (c : Char) : Bool :=
  c = '̀' || c = '́' || c = '̄' || c = '̌' || c = '̈'

/-- NFKD decomposition of one character, modelling
`unicodedata.normalize("NFKD", ·)` restricted to the precomposed Latin
letters with tone marks used in pinyin; all other characters decompose
to themselves. -/
def nfkdChar (c : Char) : List Char :=
  if c = 'ā' then ['a', '̄'] else if c = 'á' then ['a', '́']
  else if c = 'ǎ' then ['a', '̌'] else if c = 'à' then ['a', '̀']
  else if c = 'ē' then ['e', '̄'] else if c = 'é' then ['e', '́']
  else if c = 'ě' then ['e', '̌'] else if c = 'è' then ['e', '̀']
  else if c = 'ī' then ['i', '̄'] else if c = 'í' then ['i', '́']
  else if c = 'ǐ' then ['i', '̌'] else if c = 'ì' then ['i', '̀']
  else if c = 'ō' then ['o', '̄'] else if c = 'ó' then ['o', '́']
  else if c = 'ǒ' then ['o', '̌'] else if c = 'ò' then ['o', '̀']
  else if c = 'ū' then ['u', '̄'] else if c = 'ú' then ['u', '́']
  else if c = 'ǔ' then ['u', '̌'] else if c = 'ù' then ['u', '̀']
  else if c = 'ü' then ['u', '̈']
  else if c = 'ǖ' then ['u', '̈', '̄'] else if c = 'ǘ' then ['u', '̈', '́']
  else if c = 'ǚ' then ['u', '̈', '̌'] else if c = 'ǜ' then ['u', '̈', '̀']
  else [c]

/-- The precomposed tone-marked pinyin letters `nfkdChar` decomposes. -/
def pinyinToneLetters : List Char :=
  ['ā', 'á', 'ǎ', 'à', 'ē', 'é', 'ě', 'è', 'ī', 'í', 'ǐ', 'ì',
   'ō', 'ó', 'ǒ', 'ò', 'ū', 'ú', 'ǔ', 'ù', 'ü', 'ǖ', 'ǘ', 'ǚ', 'ǜ']

/-- `strip_diacritics` on character lists: NFKD-normalize, then drop
combining characters. -/
def charStrip (l : List Char) : List Char :=
  (l.flatMap nfkdChar).filter (fun c => !isCombining c)

/-- `strip_diacritics`: NFKD-normalize, then drop combining characters. -/
def strip_diacritics (s : String) : String := String.mk (charStrip s.toList)

/-- Character-level join with single spaces, mirroring `joinWith " "`. -/
def joinChars : List (List Char) → List Char
  | [] => []
  | [t] => t
  | t :: u :: rest => t ++ ' ' :: joinChars (u :: rest)

/-- The non-empty tokens of `re.split(r"\s+", ·)`: maximal runs of
non-whitespace characters. -/
def wsTokensAux : List Char → List Char → List (List Char)
  | [], acc => if acc.isEmpty then [] else [acc.reverse]
  | c :: rest, acc =>
      if isPySpace c then
        if acc.isEmpty then wsTokensAux rest [] else acc.reverse :: wsTokensAux rest []
      else wsTokensAux rest (c :: acc)

def wsTokens (l : List Char) : List (List Char) := wsTokensAux l []

/-- `f"{first_letter}_"` for a syllable token; tokens are non-empty by
construction, the `[]` case is unreachable. -/
def maskToken (t : List Char) : String :=
  match t with
  | [] => "_"
  | c :: _ => String.mk [c, '_']

/-- `pinyin_mask` from src/anki/hints.py. -/
def pinyin_mask (pinyin : String) : String :=
  if pinyin = "" then ""
  else
    joinWith " "
      ((wsTokens (pyStrip (strip_diacritics pinyin)).toList).map maskToken)

/-! ### Audio filenames (src/audio/generate_audio.py, src/anki/api.py)

The MD5 hex digest `hashlib.md5(sentence.encode("utf-8")).hexdigest()`
is abstracted as a function argument `digest : String → String`: both
the generator and the finder call the same digest on the same sentence,
and nothing proved here depends on its value.  A directory is modelled
by the list of its filenames (`os.listdir`). -/

/-- The characters removed by `re.sub(r'[<>:"/\\|?*]', '', text)`. -/
def isFnBadChar (c : Char) : Bool :=
  c = '<' || c = '>' || c = ':' || c = '"' || c = '/' || c = '\\' ||
    c = '|' || c = '?' || c = '*'

/-- `re.sub(r'\s+', '_', ·)`: each maximal whitespace run becomes one
underscore.  The flag records whether the previous character belonged
to a whitespace run already replaced. -/
def collapseWsAux : List Char → Bool → List Char
  | [], _ => []
  | c :: rest, inRun =>
      if isPySpace c then
        if inRun then collapseWsAux rest true else '_' :: collapseWsAux rest true
      else c :: collapseWsAux rest false

def collapseWs (l : List Char) : List Char := collapseWsAux l false

/-- `sanitize_filename` from src/audio/generate_audio.py. -/
def sanitize_filename (text : String) : String :=
  String.mk ((collapseWs (text.toList.filter (fun c => !isFnBadChar c))).take 50)

/-- The filename `process_csv_row` builds for a sentence audio file:
`f"{sanitize_filename(sentence[:30])}_{md5(sentence)[:8]}.mp3"`. -/
def sentenceAudioFilename (digest : String → String) (sentence : String) : String :=
  sanitize_filename (strSlice sentence 0 30) ++ "_" ++ strSlice (digest sentence) 0 8 ++ ".mp3"

/-- Python `s.endswith(t)`. -/
def pyEndsWith (s t : String) : Bool := decide (t.toList <:+ s.toList)

/-- Python `t in s` (substring test). -/
def pyContains (s t : String) : Bool := decide (t.toList <:+: s.toList)

/-- The per-file match test of `find_audio_for_sentence`:
`filename.endswith('.mp3') and sentence_hash in filename`. -/
def matchesSentenceAudio (digest : String → String) (sentence filename : String) : Bool :=
  pyEndsWith filename ".mp3" && pyContains filename (strSlice (digest sentence) 0 8)

/-- `find_audio_for_sentence` from src/anki/api.py, over a directory
listing; returns the first matching filename.  (The source returns the
absolute path of the match and also returns `None` when the directory
does not exist; the listing argument models the existing directory's
contents.) -/
def find_audio_for_sentence (digest : String → String) (sentence : String)
    (listing : List String) : Option String :=
  if sentence = "" then none
  else listing.find? (matchesSentenceAudio digest sentence)

/-! ### `build_notes_from_row` (src/csv_to_anki.py lines 71-289)

The helpers whose output only feeds field values — the regex cleaner
`clean_pinyin_from_sentence`, the lookup tables `lookup_pos` /
`lookup_register` / `lookup_frequency`, the hint builder `build_hints`
(instantiated at the three flag combinations the function uses), the
audio search (which reads the filesystem) and `os.path.isfile` — are
supplied in a context record: the claims about this function concern
the number, order and indexing of the produced notes, which do not
depend on those values. -/

structure HintData where
  hint1 : String
  hint2 : String
  hint3 : String
  hint4 : Option String
deriving DecidableEq, Repr

structure RowCtx where
  deckName : String
  cleanFn : String → String
  posFn : String → String
  regFn : String → String
  freqFn : String → String
  findSentenceAudio : String → Option String
  findWordAudio : String → Option String
  isFile : String → Bool
  hintsSentence : HintData
  hintsPattern : HintData
  hintsAudio : HintData

/-- `oculta_objetivo_en_texto` from src/anki/hints.py. -/
def oculta_objetivo_en_texto (texto objetivo : String) : String :=
  if texto = "" then ""
  else if objetivo = "" then texto
  else texto.replace objetivo "___"

/-- `os.path.basename` for the forward-slash paths this pipeline builds. -/
def pyBasename (p : String) : String := ((pySplit p '/').getLast?).getD ""

/-- `row.get(k) or ""`. -/
def rawGet (row : List (String × String)) (k : String) : String :=
  ((lookupField row k).getD "")

/-- `(row.get(k) or "").strip()`. -/
def rowGet (row : List (String × String)) (k : String) : String := pyStrip (rawGet row k)

/-- `[t.strip() for t in s.split(";") if t.strip()]`. -/
def splitSemicolonTags (s : String) : List String :=
  (pySplit s ';').filterMap (fun t => if pyStrip t = "" then none else some (pyStrip t))

/-- `[f(s.strip()) for s in raw.split("|") if s.strip()]`. -/
def splitPipeWith (f : String → String) (raw : String) : List String :=
  (pySplit raw '|').filterMap (fun t => if pyStrip t = "" then none else some (f (pyStrip t)))

/-- The `while len(es) < n: es.append(es[-1] if es else "")` padding loop. -/
def padEs (es : List String) (n : Nat) : List String :=
  if _h : es.length < n then padEs (es ++ [(es.getLast?).getD ""]) n else es
termination_by n - es.length
decreasing_by simp only [List.length_append, List.length_cons, List.length_nil]; omega

/-- The Chinese sentence list of a row: the cleaned non-empty pieces of
`example_sentence` split on `|`, defaulting to `[""]`. -/
def cnListOf (ctx : RowCtx) (row : List (String × String)) : List String :=
  let cn0 := splitPipeWith ctx.cleanFn (rawGet row "example_sentence")
  if cn0.isEmpty then [""] else cn0

/-- The Spanish sentence list of a row: the non-empty pieces of
`example_translation` split on `|`, defaulting to `[""]`, padded with
its last element up to the length of the Chinese list. -/
def esListOf (ctx : RowCtx) (row : List (String × String)) : List String :=
  let es0 := splitPipeWith id (rawGet row "example_translation")
  padEs (if es0.isEmpty then [""] else es0) (cnListOf ctx row).length

/-- The audio attachment list of one card: the sentence audio and the
word audio, each included when its path was found and is a file. -/
def audioListFor (ctx : RowCtx) (sentPath : Option String) (wordPath : Option String) :
    List AudioSpec :=
  (match sentPath with
   | some p => if ctx.isFile p then [⟨p, pyBasename p, ["Audio"]⟩] else []
   | none => []) ++
  (match wordPath with
   | some p => if ctx.isFile p then [⟨p, pyBasename p, ["WordAudio"]⟩] else []
   | none => [])

/-- `build_notes_from_row`, with the three `random.randint(0, 9999)`
draws of its `generate_sort_key` calls passed as `r1 r2 r3`.  List
indexing is `Option`-valued (`none` models an `IndexError`), so a
returned `some` certifies that every sentence access was in range. -/
def build_notes_from_row (ctx : RowCtx) (row : List (String × String))
    (r1 r2 r3 : Nat) : Option (List Note) := do
  let hanzi := rowGet row "hanzi"
  let pinyin := rowGet row "pinyin"
  let meaning := rowGet row "definition"
  let tips := rowGet row "tips"
  let colloc := rowGet row "collocations"
  let pos := rowGet row "pos"
  let register := rowGet row "register"
  let pattern := rowGet row "pattern"
  let tagsSeed := rowGet row "tags_seed"
  let frecuencia := rowGet row "frecuencia"
  let allTags :=
    (if tagsSeed = "" then [] else splitSemicolonTags tagsSeed) ++
    (if frecuencia = "" then [] else splitSemicolonTags frecuencia) ++
    (if register = "" then [] else [register])
  let combinedTags := joinWith ";" allTags
  let ankiTagsOf := fun (kind : String) =>
    ["SRS", kind] ++ allTags.map (fun t => t.replace ":" "-")
  let cn := cnListOf ctx row
  let es := esListOf ctx row
  let posReadable := if pos = "" then "" else ctx.posFn pos
  let registerReadable := if register = "" then "" else ctx.regFn register
  let frecuenciaReadable := if frecuencia = "" then "" else ctx.freqFn frecuencia
  let audioPathWord := ctx.findWordAudio hanzi
  -- SentenceCard: first sentence
  let sentCn1 ← cn.get? 0
  let sentEs1 ← es.get? 0
  let audioPathSentence := ctx.findSentenceAudio sentCn1
  let frontLine := sentCn1 ++ " → ¿Qué es " ++ hanzi ++ "?"
  let noteSentence : Note :=
    { deckName := ctx.deckName, modelName := "ChinoSRS_SentenceCard", hasFields := true,
      fields := [("Hanzi", hanzi), ("Pinyin", pinyin), ("Meaning", meaning),
        ("SentenceCN", sentCn1), ("SentenceES", sentEs1), ("Tips", tips),
        ("Collocations", colloc), ("POS", posReadable), ("Register", registerReadable),
        ("Frecuencia", frecuenciaReadable), ("Tags", combinedTags), ("Audio", ""),
        ("WordAudio", ""), ("FrontLine", frontLine),
        ("Hint1", ctx.hintsSentence.hint1), ("Hint2", ctx.hintsSentence.hint2),
        ("Hint3", ctx.hintsSentence.hint3),
        ("SortKey", generate_sort_key frecuencia r1)],
      allowDuplicate := false, tags := ankiTagsOf "Sentence",
      audio := audioListFor ctx audioPathSentence audioPathWord, extra := 0 }
  -- PatternCard: second sentence (or first)
  let idxPattern := if cn.length > 1 then 1 else 0
  let sentCn2 ← cn.get? idxPattern
  let sentEs2 ← es.get? idxPattern
  let clozeSentence := oculta_objetivo_en_texto sentCn2 hanzi
  let audioPathPattern := ctx.findSentenceAudio sentCn2
  let notePattern : Note :=
    { deckName := ctx.deckName, modelName := "ChinoSRS_PatternCard", hasFields := true,
      fields := [("Hanzi", hanzi), ("Pinyin", pinyin), ("Meaning", meaning),
        ("SentenceCN", sentCn2), ("SentenceES", sentEs2), ("Tips", tips),
        ("Pattern", pattern), ("POS", posReadable), ("Register", registerReadable),
        ("Frecuencia", frecuenciaReadable), ("Audio", ""), ("WordAudio", ""),
        ("Tags", combinedTags), ("ClozeSentence", clozeSentence), ("MissingPart", hanzi),
        ("Hint1", ctx.hintsPattern.hint1), ("Hint2", ctx.hintsPattern.hint2),
        ("Hint3", ctx.hintsPattern.hint3), ("Hint4", (ctx.hintsPattern.hint4).getD ""),
        ("SortKey", generate_sort_key frecuencia r2)],
      allowDuplicate := false, tags := ankiTagsOf "Pattern",
      audio := audioListFor ctx audioPathPattern audioPathWord, extra := 0 }
  -- AudioCard: third sentence (or second/first)
  let idxAudio := if cn.length > 2 then 2 else if cn.length > 1 then 1 else 0
  let sentCn3 ← cn.get? idxAudio
  let sentEs3 ← es.get? idxAudio
  let audioPathAudio := ctx.findSentenceAudio sentCn3
  let noteAudio : Note :=
    { deckName := ctx.deckName, modelName := "ChinoSRS_AudioCard", hasFields := true,
      fields := [("Hanzi", hanzi), ("Pinyin", pinyin), ("Meaning", meaning),
        ("SentenceCN", sentCn3), ("SentenceES", sentEs3), ("Tips", tips),
        ("POS", posReadable), ("Register", registerReadable),
        ("Frecuencia", frecuenciaReadable), ("Tags", combinedTags), ("Audio", ""),
        ("WordAudio", ""),
        ("Hint1", ctx.hintsAudio.hint1), ("Hint2", ctx.hintsAudio.hint2),
        ("Hint3", ctx.hintsAudio.hint3), ("Hint4", (ctx.hintsAudio.hint4).getD ""),
        ("SortKey", generate_sort_key frecuencia r3)],
      allowDuplicate := false, tags := ankiTagsOf "Audio",
      audio := audioListFor ctx audioPathAudio audioPathWord, extra := 0 }
  pure [noteSentence, notePattern, noteAudio]

/-! ## Theorems

First the generic facts about the numeric and string primitives, then
the lemma stacks for each embedded function, then one theorem (plus
witness or counterexample) per claim. -/

theorem strLength_mk (l : List Char) : (String.mk l).length = l.length := rfl

theorem strToList_mk (l : List Char) : (String.mk l).toList = l := rfl

theorem strToList_append (s t : String) : (s ++ t).toList = s.toList ++ t.toList :=
  String.data_append s t

theorem digitChar_isDigit {n : Nat} (h : n < 10) : (digitChar n).isDigit = true := by
  interval_cases n <;> decide

theorem natDigitsAux_fuel (n : Nat) : ∀ f1 f2, n < f1 → n < f2 →
    natDigitsAux f1 n = natDigitsAux f2 n := by
  induction n using Nat.strong_induction_on with
  | _ n ih =>
    intro f1 f2 h1 h2
    match f1, f2 with
    | g1 + 1, g2 + 1 =>
      show natDigitsAux (g1 + 1) n = natDigitsAux (g2 + 1) n
      rw [natDigitsAux, natDigitsAux]
      split
      · rfl
      · rename_i hn
        have hlt : n / 10 < n := Nat.div_lt_self (by omega) (by omega)
        rw [ih (n / 10) hlt g1 g2 (by omega) (by omega)]

theorem natDigits_eq (n : Nat) :
    natDigits n = if n < 10 then [digitChar n]
      else natDigits (n / 10) ++ [digitChar (n % 10)] := by
  show natDigitsAux (n + 1) n = _
  rw [natDigitsAux]
  split
  · rfl
  · rename_i hn
    rw [natDigitsAux_fuel (n / 10) n (n / 10 + 1)
      (Nat.div_lt_self (by omega) (by omega)) (by omega)]
    rfl

theorem natDigits_all_digits (n : Nat) : (natDigits n).all Char.isDigit = true := by
  induction n using Nat.strong_induction_on with
  | _ n ih =>
    rw [natDigits_eq]
    split
    · rename_i h
      simp only [List.all_cons, List.all_nil, Bool.and_true]
      exact digitChar_isDigit (by omega)
    · rename_i h
      rw [List.all_append]
      have h1 := ih (n / 10) (Nat.div_lt_self (by omega) (by omega))
      simp [h1, digitChar_isDigit (Nat.mod_lt _ (by omega))]

theorem natDigits_length_le {k n : Nat} (hk : 1 ≤ k) (h : n < 10 ^ k) :
    (natDigits n).length ≤ k := by
  induction n using Nat.strong_induction_on generalizing k with
  | _ n ih =>
    rw [natDigits_eq]
    split
    · simpa using hk
    · rename_i hn
      have hk2 : 2 ≤ k := by
        by_contra hcon
        have : k = 1 := by omega
        subst this
        simp at h
        omega
      have hdiv : n / 10 < 10 ^ (k - 1) := by
        rw [Nat.div_lt_iff_lt_mul (by omega)]
        calc n < 10 ^ k := h
        _ = 10 ^ (k - 1) * 10 := by
              rw [← Nat.pow_succ]
              congr 1
              omega
      have := ih (n / 10) (Nat.div_lt_self (by omega) (by omega)) (by omega) hdiv
      simp only [List.length_append, List.length_cons, List.length_nil]
      omega

theorem natPadded_length {w n : Nat} (h : (natDigits n).length ≤ w) :
    (natPadded w n).length = w := by
  simp only [natPadded, strLength_mk, List.length_append, List.length_replicate]
  omega

theorem natPadded_length_of_lt {w n : Nat} (hw : 1 ≤ w) (h : n < 10 ^ w) :
    (natPadded w n).length = w :=
  natPadded_length (natDigits_length_le hw h)

theorem natPadded_all_digits (w n : Nat) :
    (natPadded w n).toList.all Char.isDigit = true := by
  simp only [natPadded, strToList_mk, List.all_append, natDigits_all_digits, Bool.and_true]
  simp only [List.all_eq_true]
  intro c hc
  rw [List.eq_of_mem_replicate hc]
  decide

theorem intPadded_of_nonneg {w : Nat} {n : Int} (h : 0 ≤ n) :
    intPadded w n = natPadded w n.toNat := by
  rw [intPadded, if_neg (by omega)]

/-! ### Characterization of `generate_sort_key` parsing (towards C3) -/

theorem cons_getLast?_getD {α : Type} (v : α) (l : List α) (acc : α) :
    ((v :: l).getLast?).getD acc = (l.getLast?).getD v := by
  cases l with
  | nil => simp
  | cons b t =>
    rw [List.getLast?_cons_cons]
    rcases h : (b :: t).getLast? with _ | x
    · exact absurd h (by simp)
    · simp

theorem hskLoop_char (tags : List String) (acc : Int) :
    hskLoop tags acc = ((tags.filterMap hskTagVal).getLast?).getD acc := by
  induction tags generalizing acc with
  | nil => simp [hskLoop]
  | cons t rest ih =>
    rw [hskLoop, List.filterMap_cons]
    by_cases hs : pyStartsWith (pyStrip t) "hsk:"
    · simp only [hs, if_true, hskTagVal, hs]
      cases hp : pyInt (tagPayload (pyStrip t)) with
      | none => simp [hp, ih]
      | some v => simp [hp, ih, cons_getLast?_getD]
    · simp only [hs, if_false, hskTagVal]
      simp [hs, ih]

theorem freqLoop_char (tags : List String) (acc : Int) :
    freqLoop tags acc = (((tags.filterMap freqTagName).map freqBucketOf).getLast?).getD acc := by
  induction tags generalizing acc with
  | nil => simp [freqLoop]
  | cons t rest ih =>
    rw [freqLoop, List.filterMap_cons]
    by_cases hs : pyStartsWith (pyStrip t) "freq:"
    · simp only [freqTagName, hs, if_true, ih, List.map_cons]
      rw [cons_getLast?_getD]
    · simp only [freqTagName, hs, if_false]
      simp [hs, ih]

theorem parsedHsk_char (f : String) :
    parsedHsk f = ((hskParsedValues f).getLast?).getD 99 := by
  by_cases hf : f = ""
  · simp [parsedHsk, hskParsedValues, hf]
  · simp [parsedHsk, hskParsedValues, hf, hskLoop_char]

theorem parsedFreqBucket_char (f : String) :
    parsedFreqBucket f = (((freqTagNames f).getLast?).map freqBucketOf).getD 99 := by
  by_cases hf : f = ""
  · simp [parsedFreqBucket, freqTagNames, hf]
  · simp only [parsedFreqBucket, freqTagNames, hf, if_false, freqLoop_char]
    rw [List.getLast?_map]

theorem freqBucketOf_bounds (s : String) :
    0 ≤ freqBucketOf s ∧ freqBucketOf s ≤ 99 := by
  rw [freqBucketOf]
  split_ifs <;> omega

theorem parsedFreqBucket_bounds (f : String) :
    0 ≤ parsedFreqBucket f ∧ parsedFreqBucket f ≤ 99 := by
  rw [parsedFreqBucket_char]
  rcases h : (freqTagNames f).getLast? with _ | x
  · simp
  · simpa using freqBucketOf_bounds x

/-! ### Characterization of the probe search (towards C1, C4, C5, C6) -/

theorem flatMap_congr_left {α β : Type} (l : List α) (f g : α → List β)
    (h : ∀ x ∈ l, f x = g x) : l.flatMap f = l.flatMap g := by
  induction l with
  | nil => rfl
  | cons a t ih =>
    rw [List.flatMap_cons, List.flatMap_cons, h a (by simp), ih]
    intro x hx
    exact h x (by simp [hx])

theorem inBucketCands_succ (hsk : String) (base cf : Int) (off n : Nat) :
    inBucketCands hsk base cf off (n + 1) =
      mkProbeKey hsk cf base off :: inBucketCands hsk base cf (off + 1) n := by
  rw [inBucketCands, List.range_succ_eq_map, List.map_cons, Nat.add_zero, inBucketCands,
    List.map_map]
  congr 1
  apply List.map_congr_left
  intro i _
  show mkProbeKey hsk cf base (off + Nat.succ i) = mkProbeKey hsk cf base (off + 1 + i)
  congr 1
  omega

theorem inBucketCands_zero (hsk : String) (base cf : Int) (off : Nat) :
    inBucketCands hsk base cf off 0 = [] := by
  rw [inBucketCands, List.range_zero, List.map_nil]

theorem candListFrom_cons (hsk : String) (base cf : Int) (off : Nat) {att : Nat}
    (h : att ≤ 1000) :
    candListFrom hsk base cf off att =
      mkProbeKey hsk cf base off :: candListFrom hsk base cf (off + 1) (att + 1) := by
  rw [candListFrom, candListFrom]
  have h1 : 1001 - att = (1001 - (att + 1)) + 1 := by omega
  rw [h1, inBucketCands_succ, List.cons_append]

set_option maxRecDepth 4000 in
theorem candListFrom_bucket_move (hsk : String) (base cf : Int) (off : Nat)
    (h99 : cf + 1 ≤ 99) :
    candListFrom hsk base cf (off + 1) 1001 = candListFrom hsk base (cf + 1) 0 0 := by
  rw [candListFrom, candListFrom]
  have h0 : (1001 : Nat) - 1001 = 0 := rfl
  rw [h0, inBucketCands_zero, List.nil_append]
  have hn : (99 - cf).toNat = (99 - (cf + 1)).toNat + 1 := by omega
  rw [hn, List.range_succ_eq_map, List.flatMap_cons, List.flatMap_map]
  have hz : cf + 1 + ((0 : Nat) : Int) = cf + 1 := by push_cast; ring
  rw [hz]
  congr 1
  apply flatMap_congr_left
  intro j _
  show inBucketCands hsk base (cf + 1 + (Nat.succ j : Int)) 0 1001 =
    inBucketCands hsk base (cf + 1 + 1 + (j : Int)) 0 1001
  congr 1
  push_cast
  ring

theorem candListFrom_last_empty (hsk : String) (base cf : Int) (off : Nat)
    (h99 : 99 < cf + 1) :
    candListFrom hsk base cf (off + 1) 1001 = [] := by
  rw [candListFrom]
  have h0 : (1001 : Nat) - 1001 = 0 := rfl
  have h1 : (99 - cf).toNat = 0 := by omega
  rw [h0, inBucketCands_zero, List.nil_append, h1, List.range_zero, List.flatMap_nil]

/-- The probe loop, run with enough fuel and a failure counter not above
1000, returns the first candidate in `candListFrom` that is not in
`used` (with a frequency component at least the starting one), and the
saturation `RuntimeError` when every candidate is used. -/
theorem probeLoop_char (used : List String) (hsk : String) (base : Int) :
    ∀ fuel (cf : Int) (off att : Nat), att ≤ 1000 → probeMeasure cf att ≤ fuel →
      ((∀ k, (candListFrom hsk base cf off att).find? (keyUnused used) = some k →
          ∃ off2 cf2, cf ≤ cf2 ∧
            probeLoop used hsk base cf off att fuel = some (Except.ok (k, off2, cf2)))
        ∧ ((candListFrom hsk base cf off att).find? (keyUnused used) = none →
            probeLoop used hsk base cf off att fuel =
              some (Except.error (saturatedError hsk)))) := by
  intro fuel
  induction fuel with
  | zero =>
    intro cf off att _ hm
    exfalso
    rw [probeMeasure] at hm
    omega
  | succ fuel ih =>
    intro cf off att hatt hm
    rw [candListFrom_cons hsk base cf off hatt, probeLoop]
    by_cases hmem : mkProbeKey hsk cf base off ∈ used
    · have hkey : keyUnused used (mkProbeKey hsk cf base off) = false := by
        simp [keyUnused, hmem]
      rw [if_pos hmem]
      rw [List.find?_cons, hkey]
      by_cases hatt1 : att + 1 > 1000
      · have hatte : att = 1000 := by omega
        subst hatte
        rw [if_pos hatt1]
        by_cases hcf : cf + 1 > 99
        · rw [if_pos hcf, candListFrom_last_empty hsk base cf off hcf]
          exact ⟨fun k hk => by simp at hk, fun _ => rfl⟩
        · rw [if_neg hcf, candListFrom_bucket_move hsk base cf off (by omega)]
          have hmeas : probeMeasure (cf + 1) 0 ≤ fuel := by
            rw [probeMeasure] at hm ⊢
            omega
          have hstep := ih (cf + 1) 0 0 (by omega) hmeas
          refine ⟨fun k hk => ?_, hstep.2⟩
          obtain ⟨o2, c2, hle, heq⟩ := hstep.1 k hk
          exact ⟨o2, c2, by omega, heq⟩
      · rw [if_neg hatt1]
        have hmeas : probeMeasure cf (att + 1) ≤ fuel := by
          rw [probeMeasure] at hm ⊢
          omega
        exact ih cf (off + 1) (att + 1) (by omega) hmeas
    · have hkey : keyUnused used (mkProbeKey hsk cf base off) = true := by
        simp [keyUnused, hmem]
      rw [if_neg hmem, List.find?_cons, hkey]
      refine ⟨fun k hk => ?_, fun hk => by simp at hk⟩
      obtain rfl : mkProbeKey hsk cf base off = k := by
        simpa using hk
      exact ⟨off + 1, cf, le_refl cf, rfl⟩

/-! ### Fields, keys and counting (towards C1, C9) -/

theorem lookupField_setField_same (fs : List (String × String)) (key v : String) :
    lookupField (setField fs key v) key = some v := by
  induction fs with
  | nil => simp [setField, lookupField]
  | cons p rest ih =>
    obtain ⟨k2, v2⟩ := p
    rw [setField]
    by_cases h : k2 = key
    · rw [if_pos h, lookupField, if_pos h]
    · rw [if_neg h, lookupField, if_neg h]
      exact ih

theorem setField_filter_ne (fs : List (String × String)) (key v : String) :
    (setField fs key v).filter (fun p => p.1 ≠ key) = fs.filter (fun p => p.1 ≠ key) := by
  induction fs with
  | nil => simp [setField]
  | cons p rest ih =>
    obtain ⟨k2, v2⟩ := p
    rw [setField]
    by_cases h : k2 = key
    · subst h
      simp [List.filter]
    · rw [if_neg h]
      simp only [List.filter_cons]
      rw [ih]

theorem noteKey_hasFields {n : Note} {k : String} (h : noteKey n = some k) :
    n.hasFields = true := by
  by_contra hc
  rw [noteKey, if_neg (by simpa using hc)] at h
  exact Option.noConfusion h

theorem noteKey_setSortKey {n : Note} (h : n.hasFields = true) (k : String) :
    noteKey (setSortKey n k) = some k := by
  rw [noteKey, setSortKey]
  simp only [h, if_true]
  exact lookupField_setField_same n.fields "SortKey" k

theorem sameButSortKey_refl (n : Note) : sameButSortKey n n := by
  rw [sameButSortKey]
  exact ⟨rfl, rfl, rfl, rfl, rfl, rfl, rfl, rfl⟩

theorem sameButSortKey_setSortKey (n : Note) (k : String) :
    sameButSortKey n (setSortKey n k) := by
  rw [sameButSortKey, setSortKey]
  refine ⟨rfl, rfl, rfl, rfl, rfl, rfl, rfl, ?_⟩
  exact setField_filter_ne n.fields "SortKey" k

theorem keysOf_cons_count (m : Note) (rest : List Note) (k : String) :
    (keysOf (m :: rest)).count k = (keysOf rest).count k + optCount (noteKey m) k := by
  rw [keysOf, List.filterMap_cons, optCount]
  cases h : noteKey m with
  | none => simp [h, keysOf]
  | some k2 =>
    rw [List.count_cons]
    by_cases hk : k2 = k
    · subst hk
      simp [keysOf]
    · simp [keysOf, hk, Ne.symm hk]

theorem countKey_set (notes : List Note) (idx : Nat) (n n2 : Note)
    (h : notes.get? idx = some n) (k : String) :
    countKey (notes.set idx n2) k + optCount (noteKey n) k =
      countKey notes k + optCount (noteKey n2) k := by
  induction notes generalizing idx with
  | nil => exact absurd h (by simp)
  | cons m rest ih =>
    cases idx with
    | zero =>
      obtain rfl : m = n := by simpa using h
      rw [List.set_cons_zero, countKey, countKey, keysOf_cons_count, keysOf_cons_count]
      rw [countKey] at *
      omega
    | succ j =>
      rw [List.set_cons_succ, countKey, countKey, keysOf_cons_count, keysOf_cons_count]
      have := ih j (by simpa using h)
      rw [countKey, countKey] at this
      omega

theorem countKey_pos_of_keyAt {notes : List Note} {j : Nat} {k : String}
    (h : keyAt notes j = some k) : 0 < countKey notes k := by
  rw [keyAt] at h
  cases hg : notes.get? j with
  | none => rw [hg] at h; exact Option.noConfusion h
  | some n =>
    rw [hg] at h
    rw [Option.some_bind] at h
    have hmem : n ∈ notes := by
      have := List.get?_eq_some.mp hg
      obtain ⟨hlt, hget⟩ := this
      rw [← hget]
      exact List.get_mem notes _ _
    have : k ∈ keysOf notes := by
      rw [keysOf, List.mem_filterMap]
      exact ⟨n, hmem, h⟩
    rw [countKey]
    exact List.count_pos_iff.mpr this

theorem mem_keysOf_of_count {notes : List Note} {k : String}
    (h : 0 < countKey notes k) : k ∈ keysOf notes := by
  rw [countKey] at h
  exact List.count_pos_iff.mp h

/-! ### The first pass: `buildSortkeyMap` groups indices by key -/

theorem enumFrom_map_fst (l : List Note) : ∀ i,
    (enumFrom i l).map Prod.fst = (List.range l.length).map (fun t => i + t) := by
  induction l with
  | nil => intro i; rfl
  | cons n rest ih =>
    intro i
    rw [enumFrom, List.map_cons, List.length_cons, List.range_succ_eq_map, List.map_cons,
      Nat.add_zero, ih (i + 1), List.map_map]
    congr 1
    apply List.map_congr_left
    intro t _
    show i + 1 + t = i + Nat.succ t
    omega

theorem mem_enumFrom (l : List Note) : ∀ i p, p ∈ enumFrom i l →
    i ≤ p.1 ∧ l.get? (p.1 - i) = some p.2 := by
  induction l with
  | nil => intro i p h; exact absurd h (by simp [enumFrom])
  | cons n rest ih =>
    intro i p h
    rw [enumFrom, List.mem_cons] at h
    rcases h with h | h
    · subst h
      simp
    · obtain ⟨h1, h2⟩ := ih (i + 1) p h
      refine ⟨by omega, ?_⟩
      have : p.1 - i = (p.1 - (i + 1)) + 1 := by omega
      rw [this, List.get?_cons_succ]
      exact h2

theorem enumFrom_filterMap_key (l : List Note) : ∀ i,
    (enumFrom i l).filterMap (fun p => noteKey p.2) = keysOf l := by
  induction l with
  | nil => intro i; rfl
  | cons n rest ih =>
    intro i
    rw [enumFrom, List.filterMap_cons, keysOf, List.filterMap_cons]
    cases noteKey n with
    | none => exact ih (i + 1)
    | some k => rw [← keysOf, ih (i + 1)]

theorem findEntry_addToMap_same (m : List (String × List Nat)) (k : String) (i : Nat) :
    findEntry (addToMap m k i) k = some (((findEntry m k).getD []) ++ [i]) := by
  induction m with
  | nil => simp [addToMap, findEntry]
  | cons p rest ih =>
    obtain ⟨k2, is⟩ := p
    rw [addToMap]
    by_cases h : k2 = k
    · rw [if_pos h, findEntry, if_pos h, findEntry, if_pos h]
      rfl
    · rw [if_neg h, findEntry, if_neg h, findEntry, if_neg h]
      exact ih

theorem findEntry_addToMap_ne (m : List (String × List Nat)) (k k2 : String) (i : Nat)
    (h : k2 ≠ k) : findEntry (addToMap m k i) k2 = findEntry m k2 := by
  induction m with
  | nil => simp [addToMap, findEntry, Ne.symm h]
  | cons p rest ih =>
    obtain ⟨k3, is⟩ := p
    rw [addToMap]
    by_cases h3 : k3 = k
    · subst h3
      rw [if_pos rfl, findEntry, findEntry]
      have hne : ¬(k3 = k2) := fun hc => h hc.symm
      rw [if_neg hne, if_neg hne]
    · rw [if_neg h3, findEntry, findEntry]
      by_cases h23 : k3 = k2
      · rw [if_pos h23, if_pos h23]
      · rw [if_neg h23, if_neg h23]
        exact ih

theorem findEntry_none_iff (m : List (String × List Nat)) (k : String) :
    findEntry m k = none ↔ k ∉ m.map Prod.fst := by
  induction m with
  | nil => simp [findEntry]
  | cons p rest ih =>
    obtain ⟨k2, is⟩ := p
    rw [findEntry, List.map_cons]
    by_cases h : k2 = k
    · subst h
      simp
    · rw [if_neg h]
      simp only [List.mem_cons]
      rw [ih]
      constructor
      · intro hn hc
        rcases hc with hc | hc
        · exact h hc.symm
        · exact hn hc
      · intro hn
        exact fun hc => hn (Or.inr hc)

theorem findEntry_some_mem {m : List (String × List Nat)} {k : String} {idxs : List Nat}
    (h : findEntry m k = some idxs) : (k, idxs) ∈ m := by
  induction m with
  | nil => exact absurd h (by simp [findEntry])
  | cons p rest ih =>
    obtain ⟨k2, is⟩ := p
    rw [findEntry] at h
    by_cases h2 : k2 = k
    · rw [if_pos h2] at h
      subst h2
      obtain rfl : is = idxs := by simpa using h
      exact List.mem_cons_self _ _
    · rw [if_neg h2] at h
      exact List.mem_cons_of_mem _ (ih h)

theorem mem_findEntry {m : List (String × List Nat)} {k : String} {idxs : List Nat}
    (hnd : (m.map Prod.fst).Nodup) (h : (k, idxs) ∈ m) : findEntry m k = some idxs := by
  induction m with
  | nil => exact absurd h (by simp)
  | cons p rest ih =>
    obtain ⟨k2, is⟩ := p
    rw [List.map_cons, List.nodup_cons] at hnd
    rw [List.mem_cons] at h
    rcases h with h | h
    · injection h with h1 h2
      subst h1
      subst h2
      rw [findEntry, if_pos rfl]
    · by_cases h2 : k2 = k
      · exfalso
        subst h2
        have : k2 ∈ rest.map Prod.fst := by
          have := List.mem_map_of_mem Prod.fst h
          simpa using this
        exact hnd.1 this
      · rw [findEntry, if_neg h2]
        exact ih hnd.2 h

theorem addToMap_map_fst (m : List (String × List Nat)) (k : String) (i : Nat) :
    (addToMap m k i).map Prod.fst =
      if k ∈ m.map Prod.fst then m.map Prod.fst else m.map Prod.fst ++ [k] := by
  induction m with
  | nil => simp [addToMap]
  | cons p rest ih =>
    obtain ⟨k2, is⟩ := p
    rw [addToMap]
    by_cases h : k2 = k
    · subst h
      simp
    · rw [if_neg h]
      simp only [List.map_cons]
      rw [ih]
      by_cases hm : k ∈ rest.map Prod.fst
      · rw [if_pos hm, if_pos (List.mem_cons_of_mem _ hm)]
      · have hcond : k ∉ k2 :: rest.map Prod.fst := by
          rw [List.mem_cons]
          rintro (hc | hc)
          · exact h hc.symm
          · exact hm hc
        rw [if_neg hm, if_neg hcond, List.cons_append]

theorem mem_addToMap {m : List (String × List Nat)} {k k2 : String} {idxs2 : List Nat}
    {i : Nat} (hnd : (m.map Prod.fst).Nodup) (h : (k2, idxs2) ∈ addToMap m k i) :
    (k2 ≠ k ∧ (k2, idxs2) ∈ m) ∨
      (k2 = k ∧ idxs2 = ((findEntry m k).getD []) ++ [i]) := by
  induction m with
  | nil =>
    right
    rw [addToMap] at h
    obtain ⟨rfl, rfl⟩ : k2 = k ∧ idxs2 = [i] := by simpa using h
    simp [findEntry]
  | cons p rest ih =>
    obtain ⟨k3, is3⟩ := p
    rw [List.map_cons, List.nodup_cons] at hnd
    rw [addToMap] at h
    by_cases h3 : k3 = k
    · subst h3
      rw [if_pos rfl, List.mem_cons] at h
      rcases h with h | h
      · obtain ⟨rfl, rfl⟩ : k2 = k3 ∧ idxs2 = is3 ++ [i] := by
          constructor
          · exact congrArg Prod.fst h
          · exact congrArg Prod.snd h
        right
        refine ⟨rfl, ?_⟩
        rw [findEntry, if_pos rfl]
        rfl
      · left
        have hk2 : k2 ∈ rest.map Prod.fst := by
          have := List.mem_map_of_mem Prod.fst h
          simpa using this
        refine ⟨?_, List.mem_cons_of_mem _ h⟩
        intro hc
        subst hc
        exact hnd.1 hk2
    · rw [if_neg h3, List.mem_cons] at h
      rcases h with h | h
      · obtain ⟨rfl, rfl⟩ : k2 = k3 ∧ idxs2 = is3 := by
          constructor
          · exact congrArg Prod.fst h
          · exact congrArg Prod.snd h
        left
        exact ⟨fun hc => h3 (by rw [hc]), List.mem_cons_self _ _⟩
      · rcases ih hnd.2 h with ⟨hne, hmem⟩ | ⟨rfl, heq⟩
        · exact Or.inl ⟨hne, List.mem_cons_of_mem _ hmem⟩
        · right
          refine ⟨rfl, ?_⟩
          rw [heq, findEntry, if_neg h3]

theorem buildMapAux_spec (g : Nat → Option String) :
    ∀ (pairs : List (Nat × Note)) (m : List (String × List Nat)),
      (m.map Prod.fst).Nodup →
      (∀ k idxs, (k, idxs) ∈ m → (∀ i ∈ idxs, g i = some k) ∧ List.Sorted (· < ·) idxs) →
      (∀ p ∈ pairs, g p.1 = noteKey p.2) →
      ((pairs.map Prod.fst).Sorted (· < ·)) →
      (∀ p ∈ pairs, ∀ k idxs, (k, idxs) ∈ m → ∀ i ∈ idxs, i < p.1) →
      (((buildMapAux pairs m).map Prod.fst).Nodup
        ∧ (∀ k idxs, (k, idxs) ∈ buildMapAux pairs m →
            (∀ i ∈ idxs, g i = some k) ∧ List.Sorted (· < ·) idxs)
        ∧ (∀ k, entryLen (buildMapAux pairs m) k =
            entryLen m k + (pairs.filterMap (fun p => noteKey p.2)).count k)) := by
  intro pairs
  induction pairs with
  | nil =>
    intro m hnd hent _ _ _
    refine ⟨hnd, hent, fun k => ?_⟩
    simp [buildMapAux]
  | cons p rest ih =>
    obtain ⟨i, n⟩ := p
    intro m hnd hent hcons hsorted hfresh
    rw [List.map_cons] at hsorted
    rw [buildMapAux]
    cases hk : noteKey n with
    | none =>
      have hres := ih m hnd hent (fun q hq => hcons q (List.mem_cons_of_mem _ hq))
        hsorted.of_cons (fun q hq => hfresh q (List.mem_cons_of_mem _ hq))
      refine ⟨hres.1, hres.2.1, fun k => ?_⟩
      rw [hres.2.2 k, List.filterMap_cons]
      simp only [hk]
    | some k0 =>
      have hgik : g i = some k0 := by
        have := hcons (i, n) (List.mem_cons_self _ _)
        simpa [hk] using this
      -- well-formedness of the extended map
      have hnd2 : ((addToMap m k0 i).map Prod.fst).Nodup := by
        rw [addToMap_map_fst]
        by_cases hm : k0 ∈ m.map Prod.fst
        · rwa [if_pos hm]
        · rw [if_neg hm]
          rw [List.nodup_append]
          exact ⟨hnd, List.nodup_singleton _, by simpa using hm⟩
      have hent2 : ∀ k idxs, (k, idxs) ∈ addToMap m k0 i →
          (∀ j ∈ idxs, g j = some k) ∧ List.Sorted (· < ·) idxs := by
        intro k idxs hmem
        rcases mem_addToMap hnd hmem with ⟨_, hold⟩ | ⟨rfl, heq⟩
        · exact hent k idxs hold
        · subst heq
          cases hfe : findEntry m k with
          | none =>
            simp only [hfe, Option.getD_none, List.nil_append]
            exact ⟨by simpa using hgik, List.sorted_singleton i⟩
          | some old =>
            have holdmem := findEntry_some_mem hfe
            obtain ⟨hpts, hsort⟩ := hent k old holdmem
            have hlt : ∀ j ∈ old, j < i :=
              fun j hj => hfresh (i, n) (List.mem_cons_self _ _) k old holdmem j hj
            simp only [hfe, Option.getD_some]
            constructor
            · intro j hj
              rcases List.mem_append.mp hj with hj | hj
              · exact hpts j hj
              · obtain rfl : j = i := by simpa using hj
                exact hgik
            · rw [List.Sorted, List.pairwise_append]
              refine ⟨hsort, List.pairwise_singleton _ _, ?_⟩
              intro a ha b hb
              obtain rfl : b = i := by simpa using hb
              exact hlt a ha
      have hcons2 : ∀ q ∈ rest, g q.1 = noteKey q.2 :=
        fun q hq => hcons q (List.mem_cons_of_mem _ hq)
      have hfresh2 : ∀ q ∈ rest, ∀ k idxs, (k, idxs) ∈ addToMap m k0 i → ∀ j ∈ idxs, j < q.1 := by
        intro q hq k idxs hmem j hj
        have hiq : i < q.1 := by
          have := (List.sorted_cons.mp hsorted).1
          exact this q.1 (List.mem_map_of_mem Prod.fst hq)
        rcases mem_addToMap hnd hmem with ⟨_, hold⟩ | ⟨rfl, heq⟩
        · exact hfresh q (List.mem_cons_of_mem _ hq) k idxs hold j hj
        · subst heq
          rcases List.mem_append.mp hj with hj | hj
          · cases hfe : findEntry m k with
            | none => rw [hfe] at hj; simp at hj
            | some old =>
              rw [hfe] at hj
              have := hfresh (i, n) (List.mem_cons_self _ _) k old
                (findEntry_some_mem hfe) j (by simpa using hj)
              omega
          · obtain rfl : j = i := by simpa using hj
            exact hiq
      have hres := ih (addToMap m k0 i) hnd2 hent2 hcons2 hsorted.of_cons hfresh2
      refine ⟨hres.1, hres.2.1, fun k => ?_⟩
      rw [hres.2.2 k, List.filterMap_cons]
      simp only [hk]
      rw [List.count_cons]
      by_cases hkk : k0 = k
      · subst hkk
        have : entryLen (addToMap m k0 i) k0 = entryLen m k0 + 1 := by
          rw [entryLen, findEntry_addToMap_same, Option.getD_some, List.length_append,
            entryLen]
          simp
        rw [this]
        simp
        omega
      · have : entryLen (addToMap m k0 i) k = entryLen m k := by
          rw [entryLen, findEntry_addToMap_ne m k0 k i (fun hc => hkk hc.symm), entryLen]
        rw [this]
        simp [hkk]

/-- Everything the second pass needs to know about the sortkey map. -/
theorem buildSortkeyMap_spec (notes : List Note) :
    (((buildSortkeyMap notes).map Prod.fst).Nodup
      ∧ (∀ k idxs, (k, idxs) ∈ buildSortkeyMap notes →
          (∀ i ∈ idxs, keyAt notes i = some k) ∧ List.Sorted (· < ·) idxs)
      ∧ (∀ k, entryLen (buildSortkeyMap notes) k = countKey notes k)) := by
  have hcons : ∀ p ∈ enumFrom 0 notes, keyAt notes p.1 = noteKey p.2 := by
    intro p hp
    obtain ⟨_, hget⟩ := mem_enumFrom notes 0 p hp
    rw [Nat.sub_zero] at hget
    rw [keyAt, hget, Option.some_bind]
  have hsorted : ((enumFrom 0 notes).map Prod.fst).Sorted (· < ·) := by
    rw [enumFrom_map_fst]
    have : (List.range notes.length).map (fun t => 0 + t) = List.range notes.length := by
      rw [show (List.range notes.length) = (List.range notes.length).map id by simp]
      simp only [List.map_map]
      apply List.map_congr_left
      intro t _
      simp
    rw [this]
    exact List.pairwise_lt_range _
  have hres := buildMapAux_spec (keyAt notes) (enumFrom 0 notes) []
    (by simp) (by simp) hcons hsorted (by simp)
  refine ⟨hres.1, hres.2.1, fun k => ?_⟩
  rw [buildSortkeyMap] at *
  rw [hres.2.2 k, enumFrom_filterMap_key, entryLen, findEntry, Option.getD_none,
    List.length_nil, Nat.zero_add, countKey]

/-! ### Effect of one key assignment (towards C1, C9) -/

theorem updAt_length (notes : List Note) (idx : Nat) (k : String) :
    (updAt notes idx k).length = notes.length := by
  rw [updAt]
  cases notes.get? idx with
  | none => rfl
  | some n => exact List.length_set notes idx _

theorem updAt_get?_eq {notes : List Note} {idx : Nat} {n : Note} (k : String)
    (h : notes.get? idx = some n) :
    (updAt notes idx k).get? idx = some (setSortKey n k) := by
  rw [updAt, h]
  obtain ⟨hlt, _⟩ := List.get?_eq_some.mp h
  exact List.get?_set_eq_of_lt _ hlt

theorem updAt_get?_ne {j idx : Nat} (notes : List Note) (k : String) (h : j ≠ idx) :
    (updAt notes idx k).get? j = notes.get? j := by
  rw [updAt]
  cases notes.get? idx with
  | none => rfl
  | some n => exact List.get?_set_ne _ _ (fun hc => h hc.symm)

theorem keyAt_updAt_eq {notes : List Note} {idx : Nat} {n : Note} {kOld : String}
    (knew : String) (hg : notes.get? idx = some n) (hk : noteKey n = some kOld) :
    keyAt (updAt notes idx knew) idx = some knew := by
  rw [keyAt, updAt_get?_eq knew hg, Option.some_bind]
  exact noteKey_setSortKey (noteKey_hasFields hk) knew

theorem keyAt_updAt_ne {j idx : Nat} (notes : List Note) (knew : String) (h : j ≠ idx) :
    keyAt (updAt notes idx knew) j = keyAt notes j := by
  rw [keyAt, updAt_get?_ne notes knew h, keyAt]

theorem countKey_updAt {notes : List Note} {idx : Nat} {n : Note} {kOld : String}
    (knew : String) (hg : notes.get? idx = some n) (hk : noteKey n = some kOld) (k2 : String) :
    countKey (updAt notes idx knew) k2 + optCount (some kOld) k2 =
      countKey notes k2 + optCount (some knew) k2 := by
  rw [updAt, hg]
  have h2 : noteKey (setSortKey n knew) = some knew :=
    noteKey_setSortKey (noteKey_hasFields hk) knew
  have := countKey_set notes idx n (setSortKey n knew) hg k2
  rw [hk, h2] at this
  exact this

theorem keyAt_mem_keysOf {notes : List Note} {j : Nat} {k : String}
    (h : keyAt notes j = some k) : k ∈ keysOf notes :=
  mem_keysOf_of_count (countKey_pos_of_keyAt h)

theorem length_dropWhile_le (p : Char → Bool) (l : List Char) :
    (l.dropWhile p).length ≤ l.length := by
  induction l with
  | nil => simp [List.dropWhile]
  | cons c rest ih =>
    rw [List.dropWhile_cons]
    split
    · simp only [List.length_cons]
      omega
    · exact Nat.le_refl _

theorem stripChars_length_le (l : List Char) : (stripChars l).length ≤ l.length := by
  rw [stripChars, List.length_reverse]
  calc ((l.dropWhile isPySpace).reverse.dropWhile isPySpace).length
      ≤ (l.dropWhile isPySpace).reverse.length := length_dropWhile_le _ _
    _ = (l.dropWhile isPySpace).length := List.length_reverse _
    _ ≤ l.length := length_dropWhile_le _ _

theorem digitVal_le_of_isDigit {c : Char} (h : c.isDigit = true) : digitVal c ≤ 9 := by
  rw [Char.isDigit] at h
  rw [digitVal]
  have h2 : c.toNat ≤ 57 := of_decide_eq_true (Bool.and_elim_right h)
  omega

theorem pyInt_ge_of_short {s : String} {v : Int} (h : pyInt s = some v)
    (hlen : s.toList.length ≤ 2) : -9 ≤ v := by
  rw [pyInt] at h
  have hslen : (stripChars s.toList).length ≤ 2 :=
    le_trans (stripChars_length_le s.toList) hlen
  rcases hl : stripChars s.toList with _ | ⟨c, rest⟩
  · rw [hl, pyIntCore] at h
    exact Option.noConfusion h
  · rw [hl] at h hslen
    rw [pyIntCore] at h
    by_cases hplus : c = '+'
    · rw [if_pos hplus] at h
      split at h
      · exact Option.noConfusion h
      · split at h
        · obtain rfl : (digitsVal rest : Int) = v := by injection h
          have h0 : (0 : Int) ≤ (digitsVal rest : Int) := Int.natCast_nonneg _
          omega
        · exact Option.noConfusion h
    · rw [if_neg hplus] at h
      by_cases hminus : c = '-'
      · rw [if_pos hminus] at h
        split at h
        · exact Option.noConfusion h
        · rename_i hdig
          split at h
          · rename_i hall
            obtain rfl : -(digitsVal rest : Int) = v := by injection h
            rcases rest with _ | ⟨d, rest2⟩
            · simp [digitsVal]
            · rcases rest2 with _ | ⟨d2, rest3⟩
              · have hd : d.isDigit = true := by simpa using hall
                have : digitsVal [d] = digitVal d := by
                  rw [digitsVal, List.foldl_cons, List.foldl_nil]
                  omega
                rw [this]
                have := digitVal_le_of_isDigit hd
                omega
              · exfalso
                simp only [List.length_cons] at hslen
                omega
          · exact Option.noConfusion h
      · rw [if_neg hminus] at h
        split at h
        · obtain rfl : (digitsVal (c :: rest) : Int) = v := by injection h
          have h0 : (0 : Int) ≤ (digitsVal (c :: rest) : Int) := Int.natCast_nonneg _
          omega
        · exact Option.noConfusion h

theorem strSlice_toList_length (s : String) (a b : Nat) :
    (strSlice s a b).toList.length ≤ b - a := by
  rw [strSlice, strToList_mk]
  exact le_trans (List.length_take_le _ _) (Nat.le_refl _)

theorem optCount_self (a : String) : optCount (some a) a = 1 := by
  rw [optCount, if_pos rfl]

theorem optCount_ne {a b : String} (h : b ≠ a) : optCount (some b) a = 0 := by
  rw [optCount, if_neg]
  intro hc
  injection hc with h2
  exact h h2

theorem probeLoop_outcome (used : List String) (hsk : String) (base : Int) (cf : Int)
    (off : Nat) (hcf : -9 ≤ cf) :
    probeLoop used hsk base cf off 0 probeFuel = some (Except.error (saturatedError hsk))
    ∨ ∃ knew off2 cf2,
        probeLoop used hsk base cf off 0 probeFuel = some (Except.ok (knew, off2, cf2)) ∧
          knew ∉ used ∧ cf ≤ cf2 := by
  have hm : probeMeasure cf 0 ≤ probeFuel := by
    rw [probeMeasure]
    show _ ≤ 120000
    omega
  have hc := probeLoop_char used hsk base probeFuel cf off 0 (by omega) hm
  cases hfind : (candListFrom hsk base cf off 0).find? (keyUnused used) with
  | none => exact Or.inl (hc.2 hfind)
  | some knew =>
    obtain ⟨off2, cf2, hle, heq⟩ := hc.1 knew hfind
    have hku : keyUnused used knew = true := List.find?_some hfind
    have hnu : knew ∉ used := by simpa [keyUnused] using hku
    exact Or.inr ⟨knew, off2, cf2, heq, hnu, hle⟩

/-- The effect of deduplicating the tail `rest` of one group whose kept
first occurrence is `head` and whose shared key is `k`. -/
theorem processIndices_spec (notes0 : List Note) (hsk : String) (base : Int) (k : String)
    (head : Nat) :
    ∀ (rest : List Nat) (notes : List Note) (used : List String) (dd : List Nat)
      (cf : Int) (off : Nat),
      notes.length = notes0.length →
      (∀ k2, k2 ∈ keysOf notes → k2 ∈ used) →
      (∀ j, j ∈ dd ↔ keyAt notes j ≠ keyAt notes0 j) →
      dd.Nodup →
      (∀ j, j ∉ dd → notes.get? j = notes0.get? j) →
      (∀ j, j ∈ dd → ∃ n k2, notes0.get? j = some n ∧ notes.get? j = some (setSortKey n k2)) →
      (∀ j, j ∈ dd → ∃ i, i < j ∧ keyAt notes0 i = keyAt notes0 j) →
      (∀ i ∈ rest, keyAt notes i = some k) →
      (∀ i ∈ rest, i ∉ dd) →
      rest.Nodup →
      (∀ i ∈ rest, head < i) →
      keyAt notes0 head = some k →
      countKey notes k = rest.length + 1 →
      -9 ≤ cf →
      ((processIndices hsk base notes used dd cf off rest =
          some (Except.error (saturatedError hsk)))
        ∨ ∃ notes2 used2 dd2 cf2 off2,
            processIndices hsk base notes used dd cf off rest =
              some (Except.ok (notes2, used2, dd2, cf2, off2))
            ∧ notes2.length = notes.length
            ∧ (∀ j, j ∉ rest → notes2.get? j = notes.get? j)
            ∧ (∀ x, x ∈ used → x ∈ used2)
            ∧ (∀ k2, k2 ∈ keysOf notes2 → k2 ∈ used2)
            ∧ countKey notes2 k = 1
            ∧ (∀ k2, k2 ≠ k → k2 ∈ used → countKey notes2 k2 = countKey notes k2)
            ∧ (∀ k2, countKey notes k2 = 0 → countKey notes2 k2 ≤ 1)
            ∧ (∀ j, j ∈ dd2 ↔ (j ∈ dd ∨ j ∈ rest))
            ∧ dd2.Nodup
            ∧ (∀ j, j ∈ dd2 ↔ keyAt notes2 j ≠ keyAt notes0 j)
            ∧ (∀ j, j ∈ dd2 → ∃ n k2,
                notes0.get? j = some n ∧ notes2.get? j = some (setSortKey n k2))
            ∧ (∀ j, j ∈ dd2 → ∃ i, i < j ∧ keyAt notes0 i = keyAt notes0 j)) := by
  intro rest
  induction rest with
  | nil =>
    intro notes used dd cf off hlen hcov hdd hddnd hframe hstruct hddfirst hpend hfresh
      hrestnd hhead hheadkey hcount hcf
    right
    refine ⟨notes, used, dd, cf, off, rfl, rfl, fun j _ => rfl, fun x hx => hx, hcov,
      by simpa using hcount, fun k2 _ _ => rfl, fun k2 h0 => by omega,
      fun j => by simp, hddnd, hdd, hstruct, hddfirst⟩
  | cons idx rest' ih =>
    intro notes used dd cf off hlen hcov hdd hddnd hframe hstruct hddfirst hpend hfresh
      hrestnd hhead hheadkey hcount hcf
    rw [processIndices]
    rcases probeLoop_outcome used hsk base cf off hcf with herr | hok
    · rw [herr]
      exact Or.inl rfl
    obtain ⟨knew, off2, cf2, heq, hnu, hle⟩ := hok
    rw [heq]
    -- facts about the assigned index
    have hkidx : keyAt notes idx = some k := hpend idx (List.mem_cons_self _ _)
    obtain ⟨n, hgn, hkn⟩ : ∃ n, notes.get? idx = some n ∧ noteKey n = some k := by
      rw [keyAt] at hkidx
      cases hg : notes.get? idx with
      | none => rw [hg] at hkidx; exact Option.noConfusion hkidx
      | some n => rw [hg, Option.some_bind] at hkidx; exact ⟨n, rfl, hkidx⟩
    have hidxdd : idx ∉ dd := hfresh idx (List.mem_cons_self _ _)
    have hkinused : k ∈ used := hcov k (keyAt_mem_keysOf hkidx)
    have hknewk : knew ≠ k := fun hc => hnu (by rw [hc]; exact hkinused)
    rw [if_neg hidxdd]
    -- the updated state
    set notesA := updAt notes idx knew with hnotesA
    have hcntA : ∀ k2, countKey notesA k2 + optCount (some k) k2 =
        countKey notes k2 + optCount (some knew) k2 :=
      countKey_updAt knew hgn hkn
    have hkeyAtA_eq : keyAt notesA idx = some knew := keyAt_updAt_eq knew hgn hkn
    have hkeyAtA_ne : ∀ j, j ≠ idx → keyAt notesA j = keyAt notes j :=
      fun j hj => keyAt_updAt_ne notes knew hj
    have hget0 : notes0.get? idx = some n := (hframe idx hidxdd) ▸ hgn
    have hkey0idx : keyAt notes0 idx = some k := by
      rw [keyAt, hget0, Option.some_bind, hkn]
    -- invariant for the recursive call
    have hlenA : notesA.length = notes0.length := by
      rw [hnotesA, updAt_length, hlen]
    have hcovA : ∀ k2, k2 ∈ keysOf notesA → k2 ∈ knew :: used := by
      intro k2 hk2
      by_cases hknew2 : k2 = knew
      · exact hknew2 ▸ List.mem_cons_self _ _
      · have hpos := List.count_pos_iff.mpr hk2
        have hthis := hcntA k2
        rw [optCount_ne (fun hc => hknew2 hc.symm)] at hthis
        have hposA : 0 < countKey notesA k2 := hpos
        have hposn : 0 < countKey notes k2 := by
          rw [optCount] at hthis
          split at hthis <;> omega
        exact List.mem_cons_of_mem _ (hcov k2 (mem_keysOf_of_count hposn))
    have hddA : ∀ j, j ∈ dd ++ [idx] ↔ keyAt notesA j ≠ keyAt notes0 j := by
      intro j
      rw [List.mem_append, List.mem_singleton]
      by_cases hj : j = idx
      · subst hj
        rw [hkeyAtA_eq, hkey0idx]
        constructor
        · intro _ hc
          injection hc with hc2
          exact hknewk hc2
        · intro _
          exact Or.inr rfl
      · rw [hkeyAtA_ne j hj, ← hdd j]
        constructor
        · rintro (h | h)
          · exact h
          · exact absurd h hj
        · exact Or.inl
    have hddndA : (dd ++ [idx]).Nodup := by
      rw [List.nodup_append]
      exact ⟨hddnd, List.nodup_singleton _, by simpa using hidxdd⟩
    have hframeA : ∀ j, j ∉ dd ++ [idx] → notesA.get? j = notes0.get? j := by
      intro j hj
      rw [List.mem_append, List.mem_singleton] at hj
      push_neg at hj
      rw [hnotesA, updAt_get?_ne notes knew hj.2]
      exact hframe j hj.1
    have hstructA : ∀ j, j ∈ dd ++ [idx] → ∃ m k2,
        notes0.get? j = some m ∧ notesA.get? j = some (setSortKey m k2) := by
      intro j hj
      rw [List.mem_append, List.mem_singleton] at hj
      rcases hj with hj | hj
      · obtain ⟨m, k2, h1, h2⟩ := hstruct j hj
        refine ⟨m, k2, h1, ?_⟩
        rw [hnotesA, updAt_get?_ne notes knew (fun hc => hidxdd (by rw [← hc]; exact hj)), h2]
      · subst hj
        exact ⟨n, knew, hget0, updAt_get?_eq knew hgn⟩
    have hddfirstA : ∀ j, j ∈ dd ++ [idx] → ∃ i, i < j ∧ keyAt notes0 i = keyAt notes0 j := by
      intro j hj
      rw [List.mem_append, List.mem_singleton] at hj
      rcases hj with hj | hj
      · exact hddfirst j hj
      · subst hj
        exact ⟨head, hhead j (List.mem_cons_self _ _), by rw [hheadkey, hkey0idx]⟩
    have hpendA : ∀ i ∈ rest', keyAt notesA i = some k := by
      intro i hi
      have hine : i ≠ idx := by
        intro hc
        subst hc
        exact (List.nodup_cons.mp hrestnd).1 hi
      rw [hkeyAtA_ne i hine]
      exact hpend i (List.mem_cons_of_mem _ hi)
    have hfreshA : ∀ i ∈ rest', i ∉ dd ++ [idx] := by
      intro i hi
      rw [List.mem_append, List.mem_singleton]
      push_neg
      refine ⟨hfresh i (List.mem_cons_of_mem _ hi), ?_⟩
      intro hc
      subst hc
      exact (List.nodup_cons.mp hrestnd).1 hi
    have hcountA : countKey notesA k = rest'.length + 1 := by
      have := hcntA k
      rw [optCount_self, optCount_ne hknewk] at this
      rw [List.length_cons] at hcount
      omega
    have hres := ih notesA (knew :: used) (dd ++ [idx]) cf2 off2 hlenA hcovA hddA hddndA
      hframeA hstructA hddfirstA hpendA hfreshA (List.nodup_cons.mp hrestnd).2
      (fun i hi => hhead i (List.mem_cons_of_mem _ hi)) hheadkey hcountA (by omega)
    rcases hres with herr2 | hok2
    · exact Or.inl herr2
    obtain ⟨notes2, used2, dd2, cfF, offF, heq2, hlen2, hframe2, hsub2, hcov2, hcnt2,
      hother2, hnew2, hddm2, hddnd2, hddch2, hstruct2, hfirst2⟩ := hok2
    right
    refine ⟨notes2, used2, dd2, cfF, offF, heq2, by rw [hlen2, hnotesA, updAt_length],
      ?_, ?_, hcov2, hcnt2, ?_, ?_, ?_, hddnd2, hddch2, hstruct2, hfirst2⟩
    · -- frame with respect to the original call
      intro j hj
      rw [List.mem_cons] at hj
      push_neg at hj
      rw [hframe2 j hj.2, hnotesA, updAt_get?_ne notes knew hj.1]
    · exact fun x hx => hsub2 x (List.mem_cons_of_mem _ hx)
    · -- counts of other used keys are unchanged
      intro k2 hk2ne hk2used
      have hk2knew : k2 ≠ knew := fun hc => hnu (hc ▸ hk2used)
      rw [hother2 k2 hk2ne (List.mem_cons_of_mem _ hk2used)]
      have := hcntA k2
      rw [optCount_ne (fun hc => hk2ne hc.symm), optCount_ne (fun hc => hk2knew hc.symm)]
        at this
      omega
    · -- fresh keys stay unique
      intro k2 h0
      have hk2k : k2 ≠ k := by
        intro hc
        subst hc
        rw [hcount] at h0
        omega
      have := hcntA k2
      rw [optCount_ne (fun hc => hk2k hc.symm)] at this
      by_cases hk2knew : k2 = knew
      · subst hk2knew
        rw [optCount_self] at this
        have hA : countKey notesA k2 = 1 := by omega
        rw [hother2 k2 hk2k (List.mem_cons_self _ _), hA]
      · rw [optCount_ne (fun hc => hk2knew hc.symm)] at this
        exact hnew2 k2 (by omega)
    · -- membership in the deduplicated index set
      intro j
      rw [hddm2 j, List.mem_append, List.mem_singleton, List.mem_cons]
      constructor
      · rintro ((h | h) | h)
        · exact Or.inl h
        · exact Or.inr (Or.inl h)
        · exact Or.inr (Or.inr h)
      · rintro (h | h | h)
        · exact Or.inl (Or.inl h)
        · exact Or.inl (Or.inr h)
        · exact Or.inr h

/-- Processing the remaining duplicate groups preserves the invariant
and ends in one of three ways: a `ValueError` from a group key with an
unparsable slice, the saturation `RuntimeError`, or success with the
invariant holding for an empty group list. -/
theorem processGroups_spec (notes0 : List Note) :
    ∀ (rem : List (String × List Nat)) (notes : List Note) (used : List String)
      (dd : List Nat),
      DedupInv notes0 notes used dd rem →
      ((processGroups notes used dd rem = some (Except.error PyError.valueError)
          ∧ ∃ k idxs, (k, idxs) ∈ rem ∧
              ((pyInt (strSlice k 2 4)).isNone ∨ (pyInt (strSlice k 4 8)).isNone))
        ∨ (∃ hsk, processGroups notes used dd rem = some (Except.error (saturatedError hsk)))
        ∨ (∃ notes2 used2 dd2,
            processGroups notes used dd rem = some (Except.ok (notes2, used2, dd2))
            ∧ DedupInv notes0 notes2 used2 dd2 [])) := by
  intro rem
  induction rem with
  | nil =>
    intro notes used dd hinv
    right; right
    refine ⟨notes, used, dd, rfl, ?_⟩
    exact { len := hinv.len, covers := hinv.covers, groups := by simp,
            remKeys := List.nodup_nil, uniqueOut := fun k _ => hinv.uniqueOut k (by simp),
            ddChanged := hinv.ddChanged, ddNodup := hinv.ddNodup, frame := hinv.frame,
            changedStruct := hinv.changedStruct, ddNotFirst := hinv.ddNotFirst,
            remFresh := by simp }
  | cons grp rem' ih =>
    obtain ⟨k, idxs⟩ := grp
    intro notes used dd hinv
    cases hbase : pyInt (strSlice k 4 8) with
    | none =>
      left
      refine ⟨?_, k, idxs, List.mem_cons_self _ _, Or.inr (by rw [hbase]; rfl)⟩
      simp only [processGroups, hbase]
    | some base =>
      cases hcf0 : pyInt (strSlice k 2 4) with
      | none =>
        left
        refine ⟨?_, k, idxs, List.mem_cons_self _ _, Or.inl (by rw [hcf0]; rfl)⟩
        simp only [processGroups, hbase, hcf0]
      | some cf0 =>
        have hcf0ge : -9 ≤ cf0 :=
          pyInt_ge_of_short hcf0 (by simpa using strSlice_toList_length k 2 4)
        have hgok : GroupOK notes k idxs := hinv.groups k idxs (List.mem_cons_self _ _)
        obtain ⟨head, tail, rfl⟩ : ∃ h t, idxs = h :: t := by
          cases idxs with
          | nil => exact absurd hgok.twoLe (by simp)
          | cons a b => exact ⟨a, b, rfl⟩
        have hdrop : (head :: tail).drop 1 = tail := rfl
        have hsortedcons := List.sorted_cons.mp hgok.sorted
        have hheadfresh : head ∉ dd :=
          hinv.remFresh k _ (List.mem_cons_self _ _) head (List.mem_cons_self _ _)
        have hheadkey0 : keyAt notes0 head = some k := by
          rw [keyAt, ← hinv.frame head hheadfresh, ← keyAt]
          exact hgok.points head (List.mem_cons_self _ _)
        have hpi := processIndices_spec notes0 (strSlice k 0 2) base k head tail notes used dd
          cf0 1 hinv.len hinv.covers hinv.ddChanged hinv.ddNodup hinv.frame
          hinv.changedStruct hinv.ddNotFirst
          (fun i hi => hgok.points i (List.mem_cons_of_mem _ hi))
          (fun i hi => hinv.remFresh k _ (List.mem_cons_self _ _) i (List.mem_cons_of_mem _ hi))
          hsortedcons.2.nodup (fun i hi => hsortedcons.1 i hi) hheadkey0
          (by rw [hgok.countEq]; rfl) hcf0ge
        rcases hpi with herr | hok
        · right; left
          refine ⟨strSlice k 0 2, ?_⟩
          simp only [processGroups, hbase, hcf0, hdrop, herr]
        obtain ⟨notesA, usedA, ddA, cfF, offF, heqA, hlenA, hframeA, hsubA, hcovA, hcntA,
          hotherA, hnewA, hddmA, hddndA, hddchA, hstructA, hfirstA⟩ := hok
        have hfinal : processGroups notes used dd ((k, head :: tail) :: rem') =
            processGroups notesA usedA ddA rem' := by
          simp only [processGroups, hbase, hcf0, hdrop, heqA]
        -- indices of the other groups are untouched
        have hnk : k ∉ rem'.map Prod.fst := by
          have := hinv.remKeys
          rw [List.map_cons, List.nodup_cons] at this
          exact this.1
        have hnotint : ∀ k2 idxs2, (k2, idxs2) ∈ rem' → ∀ i ∈ idxs2, i ∉ tail := by
          intro k2 idxs2 hmem i hi hint
          have hk2 : keyAt notes i = some k2 :=
            (hinv.groups k2 idxs2 (List.mem_cons_of_mem _ hmem)).points i hi
          have hkk : keyAt notes i = some k := hgok.points i (List.mem_cons_of_mem _ hint)
          have : k2 = k := by
            rw [hk2] at hkk
            injection hkk
          subst this
          exact hnk (List.mem_map_of_mem Prod.fst hmem)
        have hkeyne : ∀ k2 idxs2, (k2, idxs2) ∈ rem' → k2 ≠ k := by
          intro k2 idxs2 hmem hc
          subst hc
          exact hnk (List.mem_map_of_mem Prod.fst hmem)
        -- invariant for the remaining groups
        have hinvA : DedupInv notes0 notesA usedA ddA rem' := by
          refine { len := ?_, covers := hcovA, groups := ?_, remKeys := ?_,
                   uniqueOut := ?_, ddChanged := hddchA, ddNodup := hddndA, frame := ?_,
                   changedStruct := hstructA, ddNotFirst := hfirstA, remFresh := ?_ }
          · rw [hlenA, hinv.len]
          ·
            intro k2 idxs2 hmem
            have hg2 := hinv.groups k2 idxs2 (List.mem_cons_of_mem _ hmem)
            have hkineq := hkeyne k2 idxs2 hmem
            have hpts : ∀ i ∈ idxs2, keyAt notesA i = some k2 := by
              intro i hi
              rw [keyAt, hframeA i (hnotint k2 idxs2 hmem i hi), ← keyAt]
              exact hg2.points i hi
            have hk2used : k2 ∈ used := by
              obtain ⟨i0, hi0⟩ : ∃ i0, i0 ∈ idxs2 := by
                cases idxs2 with
                | nil => exact absurd hg2.twoLe (by simp)
                | cons a b => exact ⟨a, List.mem_cons_self _ _⟩
              exact hinv.covers k2 (keyAt_mem_keysOf (hg2.points i0 hi0))
            exact { points := hpts, sorted := hg2.sorted,
                    countEq := by rw [hotherA k2 hkineq hk2used, hg2.countEq],
                    twoLe := hg2.twoLe }
          ·
            have := hinv.remKeys
            rw [List.map_cons, List.nodup_cons] at this
            exact this.2
          ·
            intro k2 hk2
            by_cases hkk : k2 = k
            · subst hkk
              rw [hcntA]
            · have hold : countKey notes k2 ≤ 1 := by
                apply hinv.uniqueOut
                rw [List.map_cons, List.mem_cons]
                rintro (hc | hc)
                · exact hkk hc
                · exact hk2 hc
              rcases Nat.eq_zero_or_pos (countKey notes k2) with hz | hpos
              · exact hnewA k2 hz
              · have : k2 ∈ used := hinv.covers k2 (mem_keysOf_of_count hpos)
                rw [hotherA k2 hkk this]
                exact hold
          ·
            intro j hj
            have hj1 : j ∉ dd := fun hc => hj ((hddmA j).mpr (Or.inl hc))
            have hj2 : j ∉ tail := fun hc => hj ((hddmA j).mpr (Or.inr hc))
            rw [hframeA j hj2]
            exact hinv.frame j hj1
          ·
            intro k2 idxs2 hmem i hi
            rw [hddmA i]
            push_neg
            exact ⟨hinv.remFresh k2 idxs2 (List.mem_cons_of_mem _ hmem) i hi,
              hnotint k2 idxs2 hmem i hi⟩
        rcases ih notesA usedA ddA hinvA with ⟨heq2, k2, idxs2, hmem2, hbad⟩ | ⟨hsk2, heq2⟩ |
          ⟨n2, u2, d2, heq2, hinv2⟩
        · exact Or.inl ⟨by rw [hfinal, heq2], k2, idxs2, List.mem_cons_of_mem _ hmem2, hbad⟩
        · exact Or.inr (Or.inl ⟨hsk2, by rw [hfinal, heq2]⟩)
        · exact Or.inr (Or.inr ⟨n2, u2, d2, by rw [hfinal, heq2], hinv2⟩)

/-! ### Sorting of the deduplicated indices -/

theorem insertNat_perm (x : Nat) (l : List Nat) : (insertNat x l).Perm (x :: l) := by
  induction l with
  | nil => exact List.Perm.refl _
  | cons y rest ih =>
    rw [insertNat]
    split
    · exact List.Perm.refl _
    · exact (List.Perm.cons y ih).trans (List.Perm.swap x y rest)

theorem sortNats_perm (l : List Nat) : (sortNats l).Perm l := by
  induction l with
  | nil => exact List.Perm.refl _
  | cons x rest ih =>
    rw [sortNats]
    exact (insertNat_perm x (sortNats rest)).trans (List.Perm.cons x ih)

theorem insertNat_sorted (x : Nat) {l : List Nat} (h : List.Sorted (· ≤ ·) l) :
    List.Sorted (· ≤ ·) (insertNat x l) := by
  induction l with
  | nil => simp [insertNat]
  | cons y rest ih =>
    rw [insertNat]
    split
    · rename_i hxy
      rw [List.sorted_cons]
      refine ⟨?_, h⟩
      intro b hb
      rw [List.mem_cons] at hb
      rcases hb with rfl | hb
      · exact hxy
      · exact le_trans hxy ((List.sorted_cons.mp h).1 b hb)
    · rename_i hxy
      rw [List.sorted_cons]
      constructor
      · intro b hb
        have := (insertNat_perm x rest).mem_iff.mp hb
        rw [List.mem_cons] at this
        rcases this with rfl | hbr
        · omega
        · exact (List.sorted_cons.mp h).1 b hbr
      · exact ih (List.sorted_cons.mp h).2

theorem sortNats_sorted (l : List Nat) : List.Sorted (· ≤ ·) (sortNats l) := by
  induction l with
  | nil => simp [sortNats]
  | cons x rest ih =>
    rw [sortNats]
    exact insertNat_sorted x ih

theorem sortNats_eq_of_mem_iff {l : List Nat} {r : List Nat} (hnd : l.Nodup)
    (hrnd : r.Nodup) (hrs : List.Sorted (· ≤ ·) r) (hmem : ∀ j, j ∈ l ↔ j ∈ r) :
    sortNats l = r := by
  have hperm : (sortNats l).Perm r := by
    rw [List.perm_ext_iff_of_nodup ((sortNats_perm l).nodup_iff.mpr hnd) hrnd]
    intro a
    rw [(sortNats_perm l).mem_iff]
    exact hmem a
  exact List.eq_of_perm_of_sorted hperm (sortNats_sorted l) hrs

/-! ### The master theorem for `deduplicate_sort_keys` -/

theorem deduplicate_sort_keys_spec (notes : List Note) :
    (∃ out ddN, deduplicate_sort_keys notes = some (Except.ok (out, ddN))
      ∧ DedupPost notes out ddN)
    ∨ (deduplicate_sort_keys notes = some (Except.error PyError.valueError)
        ∧ ∃ k idxs, (k, idxs) ∈ buildSortkeyMap notes ∧ 1 < idxs.length
            ∧ ((pyInt (strSlice k 2 4)).isNone ∨ (pyInt (strSlice k 4 8)).isNone))
    ∨ (∃ hsk, deduplicate_sort_keys notes = some (Except.error (saturatedError hsk))) := by
  obtain ⟨hknd, hent, hcnt⟩ := buildSortkeyMap_spec notes
  have hfind_len : ∀ k, 2 ≤ countKey notes k →
      ∃ idxs, (k, idxs) ∈ buildSortkeyMap notes ∧ 2 ≤ idxs.length := by
    intro k hk
    have h2 : 2 ≤ entryLen (buildSortkeyMap notes) k := by rw [hcnt k]; exact hk
    cases hfe : findEntry (buildSortkeyMap notes) k with
    | none => rw [entryLen, hfe] at h2; simp at h2
    | some idxs =>
      refine ⟨idxs, findEntry_some_mem hfe, ?_⟩
      rw [entryLen, hfe] at h2
      simpa using h2
  cases hE : ((buildSortkeyMap notes).filter (fun p => p.2.length > 1)).isEmpty with
  | true =>
    -- no duplicates: the function returns the input unchanged
    left
    have hD : deduplicate_sort_keys notes = some (Except.ok (notes, [])) := by
      simp only [deduplicate_sort_keys]
      rw [if_pos hE]
    have hle1 : ∀ k, countKey notes k ≤ 1 := by
      intro k
      by_contra hc
      obtain ⟨idxs, hmem, hlen⟩ := hfind_len k (by omega)
      have : (k, idxs) ∈ (buildSortkeyMap notes).filter (fun p => p.2.length > 1) :=
        List.mem_filter.mpr ⟨hmem, by simpa using hlen⟩
      rw [List.isEmpty_iff] at hE
      rw [hE] at this
      simp at this
    refine ⟨notes, [], hD, ?_⟩
    refine { len := rfl, nodupKeys := ?_, frame := ?_, firstKept := ?_, ddSpec := ?_ }
    · rw [List.nodup_iff_count_le_one]
      intro k
      exact hle1 k
    · exact fun j n h => ⟨n, h, sameButSortKey_refl n⟩
    · exact fun j k h _ => h
    · have : ((List.range notes.length).filter
          (fun j => decide (keyAt notes j ≠ keyAt notes j))) = [] := by
        rw [List.filter_eq_nil_iff]
        intro a _
        simp
      rw [this]
      rfl
  | false =>
    have hne : ¬(((buildSortkeyMap notes).filter (fun p => p.2.length > 1)).isEmpty = true) := by
      rw [hE]
      exact Bool.false_ne_true
    have hD : deduplicate_sort_keys notes =
        (match processGroups notes ((buildSortkeyMap notes).map Prod.fst) []
            ((buildSortkeyMap notes).filter (fun p => p.2.length > 1)) with
          | none => none
          | some (Except.error e) => some (Except.error e)
          | some (Except.ok (notes2, _, dd)) =>
              some (Except.ok (notes2, (sortNats dd).filterMap (fun i => notes2.get? i)))) := by
      simp only [deduplicate_sort_keys]
      rw [if_neg hne]
    have hinv0 : DedupInv notes notes ((buildSortkeyMap notes).map Prod.fst) []
        ((buildSortkeyMap notes).filter (fun p => p.2.length > 1)) := by
      refine { len := rfl, covers := ?_, groups := ?_, remKeys := ?_, uniqueOut := ?_,
               ddChanged := by simp, ddNodup := List.nodup_nil, frame := fun j _ => rfl,
               changedStruct := by simp, ddNotFirst := by simp, remFresh := by simp }
      · intro k hk
        have hpos : 0 < countKey notes k := by
          rw [countKey]
          exact List.count_pos_iff.mpr hk
        have h1 : 0 < entryLen (buildSortkeyMap notes) k := by rw [hcnt k]; exact hpos
        cases hfe : findEntry (buildSortkeyMap notes) k with
        | none => rw [entryLen, hfe] at h1; simp at h1
        | some idxs => exact List.mem_map_of_mem Prod.fst (findEntry_some_mem hfe)
      · intro k idxs hmem
        obtain ⟨hm, hlen⟩ := List.mem_filter.mp hmem
        have hlen2 : 1 < idxs.length := by simpa using hlen
        obtain ⟨hpts, hsort⟩ := hent k idxs hm
        refine { points := hpts, sorted := hsort, countEq := ?_, twoLe := by omega }
        have := hcnt k
        rw [entryLen, mem_findEntry hknd hm, Option.getD_some] at this
        omega
      · exact ((List.filter_sublist _).map Prod.fst).nodup hknd
      · intro k hk
        by_contra hc
        obtain ⟨idxs, hmem, hlen⟩ := hfind_len k (by omega)
        have : (k, idxs) ∈ (buildSortkeyMap notes).filter (fun p => p.2.length > 1) :=
          List.mem_filter.mpr ⟨hmem, by simpa using hlen⟩
        exact hk (List.mem_map_of_mem Prod.fst this)
    rcases processGroups_spec notes _ notes ((buildSortkeyMap notes).map Prod.fst) [] hinv0
      with ⟨heq, k, idxs, hmem, hbad⟩ | ⟨hsk, heq⟩ | ⟨out, used2, dd2, heq, hinvF⟩
    · right; left
      obtain ⟨hm, hlen⟩ := List.mem_filter.mp hmem
      refine ⟨by rw [hD, heq], k, idxs, hm, by simpa using hlen, ?_⟩
      rcases hbad with hb | hb
      · exact Or.inl hb
      · exact Or.inr hb
    · right; right
      exact ⟨hsk, by rw [hD, heq]⟩
    · left
      refine ⟨out, (sortNats dd2).filterMap (fun i => out.get? i), by rw [hD, heq], ?_⟩
      have hchlt : ∀ j, keyAt out j ≠ keyAt notes j → j < notes.length := by
        intro j hch
        by_contra hge
        apply hch
        have h1 : notes.get? j = none := List.get?_eq_none.mpr (by omega)
        have h2 : out.get? j = none := List.get?_eq_none.mpr (by rw [hinvF.len]; omega)
        rw [keyAt, keyAt, h1, h2]
      have hsorteq : sortNats dd2 = (List.range notes.length).filter
          (fun j => decide (keyAt out j ≠ keyAt notes j)) := by
        apply sortNats_eq_of_mem_iff hinvF.ddNodup
        · exact (List.Nodup.filter _ (List.nodup_range _))
        · exact List.Pairwise.filter _ (List.pairwise_le_range _)
        · intro j
          rw [hinvF.ddChanged j, List.mem_filter, List.mem_range]
          constructor
          · intro hch
            exact ⟨hchlt j hch, by simpa using hch⟩
          · intro ⟨_, hch⟩
            simpa using hch
      refine { len := hinvF.len, nodupKeys := ?_, frame := ?_, firstKept := ?_,
               ddSpec := by rw [hsorteq] }
      · rw [List.nodup_iff_count_le_one]
        intro k
        exact hinvF.uniqueOut k (by simp)
      · intro j n hj
        by_cases hdd : j ∈ dd2
        · obtain ⟨n2, k2, h1, h2⟩ := hinvF.changedStruct j hdd
          have hnn : n2 = n := by
            rw [hj] at h1
            injection h1 with h3
            exact h3.symm
          rw [hnn] at h2
          exact ⟨setSortKey n k2, h2, sameButSortKey_setSortKey n k2⟩
        · refine ⟨n, ?_, sameButSortKey_refl n⟩
          rw [hinvF.frame j hdd, hj]
      · intro j k hk hfirst
        have hdd : j ∉ dd2 := by
          intro hc
          obtain ⟨i, hij, hkey⟩ := hinvF.ddNotFirst j hc
          exact hfirst i hij (by rw [hkey, hk])
        rw [keyAt, hinvF.frame j hdd, ← keyAt]
        exact hk

/-- C1: whenever `deduplicate_sort_keys` returns, the SortKey values of
the notes that have one are pairwise distinct in the returned note
list — no duplicate keys remain and none are introduced. -/
theorem claim_C1 (notes out ddN : List Note)
    (h : deduplicate_sort_keys notes = some (Except.ok (out, ddN))) :
    (keysOf out).Nodup := by
  rcases deduplicate_sort_keys_spec notes with ⟨out2, dd2, heq, hpost⟩ | ⟨heq, _⟩ |
    ⟨hsk, heq⟩
  · rw [h] at heq
    injection heq with h1
    injection h1 with h2
    injection h2 with h3 h4
    rw [h3]
    exact hpost.nodupKeys
  · rw [h] at heq
    simp at heq
  · rw [h] at heq
    simp at heq

/-- C1 (witness): two notes sharing the key "02010005" come back with
the distinct keys "02010005" and "02010006". -/
theorem claim_C1_witness :
    deduplicate_sort_keys [mkNote "02010005", mkNote "02010005"] =
        some (Except.ok ([mkNote "02010005", mkNote "02010006"], [mkNote "02010006"]))
      ∧ (keysOf [mkNote "02010005", mkNote "02010006"]).Nodup :=
  ⟨by rfl, claim_C1 [mkNote "02010005", mkNote "02010005"]
    [mkNote "02010005", mkNote "02010006"] [mkNote "02010006"] (by rfl)⟩

/-- C2: `deduplicate_sort_keys` is deterministic — it is a pure function
of the note list in this embedding, faithfully so because the source
uses no randomness in this function and only iterates dicts, whose
order is the deterministic insertion order; hence equal inputs give
equal results (the same tuple, or the same raised error). -/
theorem claim_C2 (notes1 notes2 : List Note) (h : notes1 = notes2) :
    deduplicate_sort_keys notes1 = deduplicate_sort_keys notes2 := by
  rw [h]

/-- C2 (witness): the determinism theorem applied at a concrete list. -/
theorem claim_C2_witness :
    deduplicate_sort_keys [mkNote "02010005", mkNote "02010005"] =
      deduplicate_sort_keys [mkNote "02010005", mkNote "02010005"] :=
  claim_C2 [mkNote "02010005", mkNote "02010005"] [mkNote "02010005", mkNote "02010005"] rfl

/-- C5 (counterexample): on two notes sharing the non-numeric SortKey
"abcdefgh" — an input on which no duplicate exhausts any frequency
bucket — the function does not return normally: `int(sortkey[4:8])`
raises a `ValueError`, so "on every input where no duplicate exhausts
all frequency buckets the function returns normally" is false. -/
theorem claim_C5_counterexample :
    deduplicate_sort_keys [mkNote "abcdefgh", mkNote "abcdefgh"] =
      some (Except.error PyError.valueError) := by
  rfl

/-- C5 (amended): provided every SortKey shared by more than one note
has integer-parsable `[2:4]` and `[4:8]` slices, `deduplicate_sort_keys`
either returns normally or raises the bucket-saturation `RuntimeError`
(the only `RuntimeError` it can raise, coming from the branch where the
frequency component is incremented past 99 without an unused key). -/
theorem claim_C5 (notes : List Note) (h : dupKeysParsable notes = true) :
    (∃ out ddN, deduplicate_sort_keys notes = some (Except.ok (out, ddN)))
    ∨ (∃ hsk, deduplicate_sort_keys notes = some (Except.error (saturatedError hsk))) := by
  rcases deduplicate_sort_keys_spec notes with ⟨out, ddN, heq, _⟩ |
    ⟨heq, k, idxs, hmem, hlen, hbad⟩ | ⟨hsk, heq⟩
  · exact Or.inl ⟨out, ddN, heq⟩
  · exfalso
    rw [dupKeysParsable, List.all_eq_true] at h
    have := h (k, idxs) hmem
    rcases Bool.or_eq_true_iff.mp this with h1 | h1
    · have : idxs.length ≤ 1 := of_decide_eq_true h1
      omega
    · obtain ⟨h2, h3⟩ := Bool.and_eq_true_iff.mp h1
      rcases hbad with hb | hb
      · rw [Option.isNone_iff_eq_none] at hb
        rw [hb] at h2
        simp at h2
      · rw [Option.isNone_iff_eq_none] at hb
        rw [hb] at h3
        simp at h3
  · exact Or.inr ⟨hsk, heq⟩

/-- C5 (witness): the amended theorem applied to a parsable duplicate
pair, which resolves normally. -/
theorem claim_C5_witness :
    dupKeysParsable [mkNote "02010005", mkNote "02010005"] = true
      ∧ ((∃ out ddN, deduplicate_sort_keys [mkNote "02010005", mkNote "02010005"] =
            some (Except.ok (out, ddN)))
        ∨ (∃ hsk, deduplicate_sort_keys [mkNote "02010005", mkNote "02010005"] =
            some (Except.error (saturatedError hsk)))) :=
  ⟨by rfl, claim_C5 [mkNote "02010005", mkNote "02010005"] (by rfl)⟩

/-- C6: `deduplicate_sort_keys` terminates on every finite note list:
the embedding runs the probe loop on fuel, with `none` denoting a
diverging loop, and the result is never `none` — each probe search
either finds an unused key or raises after finitely many bucket moves,
the frequency component being bounded by 99. -/
theorem claim_C6 (notes : List Note) : (deduplicate_sort_keys notes).isSome = true := by
  rcases deduplicate_sort_keys_spec notes with ⟨out, ddN, heq, _⟩ | ⟨heq, _⟩ | ⟨hsk, heq⟩ <;>
    rw [heq] <;> rfl

/-- C9: on success, `deduplicate_sort_keys` changes nothing but SortKey
values: sizes agree, every note keeps all other fields, first
occurrences (in particular notes with unique keys) keep their SortKey,
and the second component is exactly the list of changed notes in
ascending input-index order. -/
theorem claim_C9 (notes out ddN : List Note)
    (h : deduplicate_sort_keys notes = some (Except.ok (out, ddN))) :
    out.length = notes.length
    ∧ (∀ j n, notes.get? j = some n → ∃ n2, out.get? j = some n2 ∧ sameButSortKey n n2)
    ∧ (∀ j k, keyAt notes j = some k → (∀ i, i < j → keyAt notes i ≠ some k) →
        keyAt out j = some k)
    ∧ ddN = ((List.range notes.length).filter
        (fun j => decide (keyAt out j ≠ keyAt notes j))).filterMap (fun j => out.get? j) := by
  rcases deduplicate_sort_keys_spec notes with ⟨out2, dd2, heq, hpost⟩ | ⟨heq, _⟩ |
    ⟨hsk, heq⟩
  · rw [h] at heq
    injection heq with h1
    injection h1 with h2
    injection h2 with h3 h4
    subst h3
    subst h4
    exact ⟨hpost.len, hpost.frame, hpost.firstKept, hpost.ddSpec⟩
  · rw [h] at heq
    simp at heq
  · rw [h] at heq
    simp at heq

/-- C9 (witness): the frame theorem applied to a concrete pair of
duplicated notes. -/
theorem claim_C9_witness :
    deduplicate_sort_keys [mkNote "02010005", mkNote "02010005"] =
        some (Except.ok ([mkNote "02010005", mkNote "02010006"], [mkNote "02010006"]))
      ∧ ([mkNote "02010005", mkNote "02010006"].length =
          [mkNote "02010005", mkNote "02010005"].length
        ∧ (∀ j n, [mkNote "02010005", mkNote "02010005"].get? j = some n →
            ∃ n2, [mkNote "02010005", mkNote "02010006"].get? j = some n2
              ∧ sameButSortKey n n2)
        ∧ (∀ j k, keyAt [mkNote "02010005", mkNote "02010005"] j = some k →
            (∀ i, i < j → keyAt [mkNote "02010005", mkNote "02010005"] i ≠ some k) →
            keyAt [mkNote "02010005", mkNote "02010006"] j = some k)
        ∧ [mkNote "02010006"] =
            ((List.range [mkNote "02010005", mkNote "02010005"].length).filter
              (fun j => decide (keyAt [mkNote "02010005", mkNote "02010006"] j ≠
                keyAt [mkNote "02010005", mkNote "02010005"] j))).filterMap
              (fun j => [mkNote "02010005", mkNote "02010006"].get? j)) :=
  ⟨by rfl, claim_C9 [mkNote "02010005", mkNote "02010005"]
    [mkNote "02010005", mkNote "02010006"] [mkNote "02010006"] (by rfl)⟩

/-- A group's per-note loop touches only the notes at the indices it is
given: in particular the kept first occurrence (not in `indices[1:]`)
is never modified. -/
theorem processIndices_frame (hsk : String) (base : Int) :
    ∀ (rest : List Nat) (notes : List Note) (used : List String) (dd : List Nat)
      (cf : Int) (off : Nat) notes2 used2 dd2 cf2 off2,
      processIndices hsk base notes used dd cf off rest =
        some (Except.ok (notes2, used2, dd2, cf2, off2)) →
      ∀ j, j ∉ rest → notes2.get? j = notes.get? j := by
  intro rest
  induction rest with
  | nil =>
    intro notes used dd cf off notes2 used2 dd2 cf2 off2 h j _
    rw [processIndices] at h
    injection h with h1
    injection h1 with h2
    obtain rfl : notes = notes2 := congrArg (fun t => t.1) h2
    rfl
  | cons idx rest' ih =>
    intro notes used dd cf off notes2 used2 dd2 cf2 off2 h j hj
    rw [processIndices] at h
    cases hp : probeLoop used hsk base cf off 0 probeFuel with
    | none => rw [hp] at h; simp at h
    | some r =>
      rw [hp] at h
      cases r with
      | error e => simp at h
      | ok v =>
        obtain ⟨nk, o2, c2⟩ := v
        rw [List.mem_cons] at hj
        push_neg at hj
        rw [ih _ _ _ _ _ notes2 used2 dd2 cf2 off2 h j hj.2,
          updAt_get?_ne notes nk hj.1]

/-- C4 (counterexample): the claim says probing stays within the same
HSK-plus-frequency bucket (until 1000 failures move it).  For two notes
sharing the key "00 10001" the very first probe succeeds, yet the
assigned key "00010002" is not in the original key's bucket "00 1": the
code probes in the bucket labelled by the two-digit *re-formatting* of
`int(freq)`, not by the original frequency substring. -/
theorem claim_C4_counterexample :
    deduplicate_sort_keys [mkNote "00 10001", mkNote "00 10001"] =
        some (Except.ok ([mkNote "00 10001", mkNote "00010002"], [mkNote "00010002"]))
      ∧ strSlice "00010002" 0 4 ≠ strSlice "00 10001" 0 4 := by
  exact ⟨by rfl, by decide⟩

/-- C4 (amended): when `deduplicate_sort_keys` resolves a group, it
keeps the first note of the group untouched (`processIndices_frame`
part), and for each later note the probe search assigns the first
candidate of `candList` not yet used — 1001 candidates obtained by
adding successive offsets to the random component modulo 10000 within
the bucket formed by the HSK prefix and the two-digit zero-padded value
of the frequency component, then, after 1001 consecutive failed probes,
1001 candidates (restarting from the original random component) in each
following bucket, the frequency value increasing by one each time while
the HSK prefix stays unchanged; if every candidate up to frequency 99
is used, the saturation `RuntimeError` is raised. -/
theorem claim_C4 (used : List String) (hsk : String) (base cf : Int) (off : Nat)
    (hcf : -9 ≤ cf) :
    ((∀ k, (candList hsk base cf off).find? (keyUnused used) = some k →
        ∃ off2 cf2, cf ≤ cf2 ∧
          probeLoop used hsk base cf off 0 probeFuel = some (Except.ok (k, off2, cf2)))
      ∧ ((candList hsk base cf off).find? (keyUnused used) = none →
          probeLoop used hsk base cf off 0 probeFuel =
            some (Except.error (saturatedError hsk))))
    ∧ (∀ (rest : List Nat) (notes : List Note) (usedL : List String) (dd : List Nat)
        (cf0 : Int) (off0 : Nat) notes2 used2 dd2 cf2 off2,
        processIndices hsk base notes usedL dd cf0 off0 rest =
          some (Except.ok (notes2, used2, dd2, cf2, off2)) →
        ∀ j, j ∉ rest → notes2.get? j = notes.get? j) := by
  constructor
  · have hm : probeMeasure cf 0 ≤ probeFuel := by
      rw [probeMeasure]
      show _ ≤ 120000
      omega
    rw [candList]
    exact probeLoop_char used hsk base probeFuel cf off 0 (by omega) hm
  · exact processIndices_frame hsk base

set_option maxRecDepth 10000 in
/-- C4 (witness): the amended theorem applied with one occupied
candidate: the probe skips the used key "02010002" and assigns the next
candidate "02010003". -/
theorem claim_C4_witness :
    (-9 : Int) ≤ 1
      ∧ ((candList "02" 1 1 1).find? (keyUnused ["02010002"]) = some "02010003"
          ∧ ∃ off2 cf2, (1 : Int) ≤ cf2 ∧
              probeLoop ["02010002"] "02" 1 1 1 0 probeFuel =
                some (Except.ok ("02010003", off2, cf2))) := by
  refine ⟨by omega, by rfl, ?_⟩
  exact (claim_C4 ["02010002"] "02" 1 1 1 (by omega)).1.1 "02010003" (by rfl)

/-- C7: audio filename round-trip.  For every non-empty sentence, the
filename the audio generator builds (sanitized 30-character prefix,
underscore, first 8 hex digits of the sentence digest, `.mp3`) satisfies
the match predicate of `find_audio_for_sentence` for the same sentence,
so a generated file present in the searched directory listing is found.
The MD5 hex digest is abstracted as `digest`, shared by both sides as in
the source. -/
theorem claim_C7 (digest : String → String) (sentence : String) (listing : List String)
    (hne : sentence ≠ "") :
    matchesSentenceAudio digest sentence (sentenceAudioFilename digest sentence) = true
    ∧ (sentenceAudioFilename digest sentence ∈ listing →
        (find_audio_for_sentence digest sentence listing).isSome = true) := by
  have hfn : (sentenceAudioFilename digest sentence).toList =
      ((sanitize_filename (strSlice sentence 0 30)).toList ++ "_".toList ++
        (strSlice (digest sentence) 0 8).toList) ++ ".mp3".toList := by
    rw [sentenceAudioFilename, strToList_append, strToList_append, strToList_append]
  have hmatch : matchesSentenceAudio digest sentence
      (sentenceAudioFilename digest sentence) = true := by
    rw [matchesSentenceAudio, pyEndsWith, pyContains, hfn, Bool.and_eq_true]
    constructor
    · exact decide_eq_true (List.suffix_append _ _)
    · exact decide_eq_true (List.infix_append _ _ _)
  refine ⟨hmatch, fun hmem => ?_⟩
  rw [find_audio_for_sentence, if_neg hne, List.find?_isSome]
  exact ⟨sentenceAudioFilename digest sentence, hmem, hmatch⟩

/-- C7 (witness): with a fixed digest value the generated filename for
"你好" is found in a directory listing containing it. -/
theorem claim_C7_witness :
    "你好" ≠ ""
    ∧ (matchesSentenceAudio (fun _ => "0123456789abcdef0123456789abcdef") "你好"
          (sentenceAudioFilename (fun _ => "0123456789abcdef0123456789abcdef") "你好") = true
      ∧ (sentenceAudioFilename (fun _ => "0123456789abcdef0123456789abcdef") "你好" ∈
            [sentenceAudioFilename (fun _ => "0123456789abcdef0123456789abcdef") "你好"] →
          (find_audio_for_sentence (fun _ => "0123456789abcdef0123456789abcdef") "你好"
            [sentenceAudioFilename (fun _ => "0123456789abcdef0123456789abcdef") "你好"]).isSome
            = true)) :=
  ⟨by decide, claim_C7 (fun _ => "0123456789abcdef0123456789abcdef") "你好"
    [sentenceAudioFilename (fun _ => "0123456789abcdef0123456789abcdef") "你好"] (by decide)⟩

/-! ### `build_notes_from_row` always builds three cards (towards C10) -/

theorem padEs_le_length (es : List String) (n : Nat) : n ≤ (padEs es n).length := by
  rw [padEs]
  split
  · exact padEs_le_length (es ++ [(es.getLast?).getD ""]) n
  · omega
termination_by n - es.length
decreasing_by simp only [List.length_append, List.length_cons, List.length_nil]; omega

theorem cnListOf_length_pos (ctx : RowCtx) (row : List (String × String)) :
    1 ≤ (cnListOf ctx row).length := by
  rw [cnListOf]
  cases hE : (splitPipeWith ctx.cleanFn (rawGet row "example_sentence")).isEmpty with
  | true => simp
  | false =>
    simp only [hE, if_false, Bool.false_eq_true]
    rw [List.isEmpty_eq_false_iff_exists_mem] at hE
    obtain ⟨x, hx⟩ := hE
    have := List.length_pos_of_mem hx
    omega

theorem esListOf_le_length (ctx : RowCtx) (row : List (String × String)) :
    (cnListOf ctx row).length ≤ (esListOf ctx row).length := by
  rw [esListOf]
  exact padEs_le_length _ _

/-- C10: for every CSV row — including rows with empty or missing
example sentences and translations — `build_notes_from_row` returns
(never hitting an out-of-range sentence access, which the `Option`
threading would turn into `none`) exactly three notes whose model names
are `ChinoSRS_SentenceCard`, `ChinoSRS_PatternCard` and
`ChinoSRS_AudioCard`, in that order. -/
theorem claim_C10 (ctx : RowCtx) (row : List (String × String)) (r1 r2 r3 : Nat) :
    (build_notes_from_row ctx row r1 r2 r3).map (fun l => l.map Note.modelName) =
      some ["ChinoSRS_SentenceCard", "ChinoSRS_PatternCard", "ChinoSRS_AudioCard"] := by
  have hcn := cnListOf_length_pos ctx row
  have hes := esListOf_le_length ctx row
  have hidxP : (if (cnListOf ctx row).length > 1 then 1 else 0) < (cnListOf ctx row).length := by
    split <;> omega
  have hidxA : (if (cnListOf ctx row).length > 2 then 2
      else if (cnListOf ctx row).length > 1 then 1 else 0) < (cnListOf ctx row).length := by
    split
    · omega
    · split <;> omega
  have ha1 : (cnListOf ctx row).get? 0 = some ((cnListOf ctx row).get ⟨0, by omega⟩) :=
    List.get?_eq_get (by omega)
  have ha2 : (esListOf ctx row).get? 0 = some ((esListOf ctx row).get ⟨0, by omega⟩) :=
    List.get?_eq_get (by omega)
  have ha3 : (cnListOf ctx row).get? (if (cnListOf ctx row).length > 1 then 1 else 0) =
      some ((cnListOf ctx row).get ⟨_, hidxP⟩) :=
    List.get?_eq_get hidxP
  have ha4 : (esListOf ctx row).get? (if (cnListOf ctx row).length > 1 then 1 else 0) =
      some ((esListOf ctx row).get
        ⟨if (cnListOf ctx row).length > 1 then 1 else 0, by omega⟩) :=
    List.get?_eq_get (by omega)
  have ha5 : (cnListOf ctx row).get? (if (cnListOf ctx row).length > 2 then 2
      else if (cnListOf ctx row).length > 1 then 1 else 0) =
      some ((cnListOf ctx row).get ⟨_, hidxA⟩) :=
    List.get?_eq_get hidxA
  have ha6 : (esListOf ctx row).get? (if (cnListOf ctx row).length > 2 then 2
      else if (cnListOf ctx row).length > 1 then 1 else 0) =
      some ((esListOf ctx row).get ⟨if (cnListOf ctx row).length > 2 then 2
        else if (cnListOf ctx row).length > 1 then 1 else 0, by omega⟩) :=
    List.get?_eq_get (by omega)
  simp only [build_notes_from_row, ha1, ha2, ha3, ha4, ha5, ha6, Option.bind_eq_bind,
    Option.some_bind]
  rfl

/-- C3 (counterexample): the claim quantifies over every `frecuencia`
string, but for `"hsk:123"` the HSK level 123 parses successfully and is
formatted with three digits, so the resulting key has nine characters,
not eight. -/
theorem claim_C3_counterexample :
    generate_sort_key "hsk:123" 0 = "123990000" ∧
      (generate_sort_key "hsk:123" 0).length ≠ 8 := by
  constructor <;> decide

/-- C3 (amended): provided the parsed HSK level lies between 0 and 99
(any level outside that range breaks the two-digit format, see the
counterexample) and the random draw is at most 9999, `generate_sort_key`
returns the concatenation of the two-digit HSK level, the two-digit
frequency bucket and the four-digit random tiebreak — an eight-character
digit string — where the HSK level is the last parsable `hsk:` tag value
(default 99) and the bucket is the `freq_map` image (top1k ↦ 01,
top3k ↦ 03, top5k ↦ 05, top10k ↦ 10, rare ↦ 90, else 99) of the last
`freq:` tag payload (default 99). -/
theorem claim_C3 (frecuencia : String) (randomNum : Nat) (hr : randomNum ≤ 9999)
    (h0 : 0 ≤ parsedHsk frecuencia) (h99 : parsedHsk frecuencia ≤ 99) :
    generate_sort_key frecuencia randomNum =
        natPadded 2 (parsedHsk frecuencia).toNat ++
          natPadded 2 (parsedFreqBucket frecuencia).toNat ++ natPadded 4 randomNum
      ∧ (generate_sort_key frecuencia randomNum).length = 8
      ∧ (generate_sort_key frecuencia randomNum).toList.all Char.isDigit = true
      ∧ parsedHsk frecuencia = ((hskParsedValues frecuencia).getLast?).getD 99
      ∧ parsedFreqBucket frecuencia =
          (((freqTagNames frecuencia).getLast?).map freqBucketOf).getD 99 := by
  obtain ⟨hb0, hb99⟩ := parsedFreqBucket_bounds frecuencia
  have heq : generate_sort_key frecuencia randomNum =
      natPadded 2 (parsedHsk frecuencia).toNat ++
        natPadded 2 (parsedFreqBucket frecuencia).toNat ++ natPadded 4 randomNum := by
    rw [generate_sort_key, intPadded_of_nonneg h0, intPadded_of_nonneg hb0]
  have hlh : (natPadded 2 (parsedHsk frecuencia).toNat).length = 2 :=
    natPadded_length_of_lt (by omega) (by omega)
  have hlb : (natPadded 2 (parsedFreqBucket frecuencia).toNat).length = 2 :=
    natPadded_length_of_lt (by omega) (by omega)
  have hlr : (natPadded 4 randomNum).length = 4 :=
    natPadded_length_of_lt (by omega) (by omega)
  refine ⟨heq, ?_, ?_, parsedHsk_char frecuencia, parsedFreqBucket_char frecuencia⟩
  · rw [heq, String.length_append, String.length_append, hlh, hlb, hlr]
  · rw [heq, strToList_append, strToList_append, List.all_append, List.all_append,
      natPadded_all_digits, natPadded_all_digits, natPadded_all_digits]
    rfl

/-- C3 (witness): the amended theorem applied to
`frecuencia = "hsk:2;freq:top1k"` with random draw 123, the spec's own
example, whose sort key is `"02010123"`. -/
theorem claim_C3_witness :
    (123 : Nat) ≤ 9999 ∧ 0 ≤ parsedHsk "hsk:2;freq:top1k" ∧
      parsedHsk "hsk:2;freq:top1k" ≤ 99 ∧
      (generate_sort_key "hsk:2;freq:top1k" 123 =
          natPadded 2 (parsedHsk "hsk:2;freq:top1k").toNat ++
            natPadded 2 (parsedFreqBucket "hsk:2;freq:top1k").toNat ++ natPadded 4 123
        ∧ (generate_sort_key "hsk:2;freq:top1k" 123).length = 8
        ∧ (generate_sort_key "hsk:2;freq:top1k" 123).toList.all Char.isDigit = true
        ∧ parsedHsk "hsk:2;freq:top1k" = ((hskParsedValues "hsk:2;freq:top1k").getLast?).getD 99
        ∧ parsedFreqBucket "hsk:2;freq:top1k" =
            (((freqTagNames "hsk:2;freq:top1k").getLast?).map freqBucketOf).getD 99) :=
  ⟨by omega, by decide, by decide, claim_C3 "hsk:2;freq:top1k" 123 (by omega) (by decide) (by decide)⟩

/-- `joinWith " "` seen on character lists. -/
theorem joinWith_space_toList : ∀ syls : List String,
    (joinWith " " syls).toList = joinChars (syls.map String.toList)
  | [] => rfl
  | [x] => rfl
  | x :: y :: rest => by
      rw [show joinWith " " (x :: y :: rest) = x ++ " " ++ joinWith " " (y :: rest)
          from rfl,
        strToList_append, strToList_append, joinWith_space_toList (y :: rest),
        List.append_assoc]
      rfl

/-- Diacritic stripping distributes over list concatenation. -/
theorem charStrip_append (a b : List Char) :
    charStrip (a ++ b) = charStrip a ++ charStrip b := by
  simp [charStrip, List.flatMap_append, List.filter_append]

/-- A space survives diacritic stripping unchanged. -/
theorem charStrip_space : charStrip [' '] = [' '] := by decide

/-- Diacritic stripping distributes over the space-join. -/
theorem charStrip_joinChars : ∀ ts : List (List Char),
    charStrip (joinChars ts) = joinChars (ts.map charStrip)
  | [] => rfl
  | [t] => rfl
  | t :: u :: rest => by
      show charStrip (t ++ ' ' :: joinChars (u :: rest)) = _
      rw [show (' ' :: joinChars (u :: rest)) = [' '] ++ joinChars (u :: rest) from rfl,
        charStrip_append, charStrip_append, charStrip_space,
        charStrip_joinChars (u :: rest)]
      rfl

/-- Characters outside the tone-letter table decompose to themselves. -/
theorem nfkdChar_self (c : Char) (hm : c ∉ pinyinToneLetters) : nfkdChar c = [c] := by
  unfold nfkdChar
  rw [if_neg (fun h => hm (by rw [h]; decide)), if_neg (fun h => hm (by rw [h]; decide)),
    if_neg (fun h => hm (by rw [h]; decide)), if_neg (fun h => hm (by rw [h]; decide)),
    if_neg (fun h => hm (by rw [h]; decide)), if_neg (fun h => hm (by rw [h]; decide)),
    if_neg (fun h => hm (by rw [h]; decide)), if_neg (fun h => hm (by rw [h]; decide)),
    if_neg (fun h => hm (by rw [h]; decide)), if_neg (fun h => hm (by rw [h]; decide)),
    if_neg (fun h => hm (by rw [h]; decide)), if_neg (fun h => hm (by rw [h]; decide)),
    if_neg (fun h => hm (by rw [h]; decide)), if_neg (fun h => hm (by rw [h]; decide)),
    if_neg (fun h => hm (by rw [h]; decide)), if_neg (fun h => hm (by rw [h]; decide)),
    if_neg (fun h => hm (by rw [h]; decide)), if_neg (fun h => hm (by rw [h]; decide)),
    if_neg (fun h => hm (by rw [h]; decide)), if_neg (fun h => hm (by rw [h]; decide)),
    if_neg (fun h => hm (by rw [h]; decide)), if_neg (fun h => hm (by rw [h]; decide)),
    if_neg (fun h => hm (by rw [h]; decide)), if_neg (fun h => hm (by rw [h]; decide)),
    if_neg (fun h => hm (by rw [h]; decide))]

set_option maxHeartbeats 1000000 in
/-- NFKD decomposition of a non-whitespace character contains no
whitespace: tone vowels decompose to a base vowel plus combining marks. -/
theorem nfkdChar_not_space (c : Char) (hc : isPySpace c = false) :
    ∀ d ∈ nfkdChar c, isPySpace d = false := by
  by_cases hm : c ∈ pinyinToneLetters
  · simp only [pinyinToneLetters, List.mem_cons, List.not_mem_nil, or_false] at hm
    rcases hm with rfl | rfl | rfl | rfl | rfl | rfl | rfl | rfl | rfl | rfl | rfl |
      rfl | rfl | rfl | rfl | rfl | rfl | rfl | rfl | rfl | rfl | rfl | rfl | rfl |
      rfl <;> decide
  · rw [nfkdChar_self c hm]
    intro d hd
    simp only [List.mem_singleton] at hd
    subst hd
    exact hc

/-- Diacritic stripping of a whitespace-free list is whitespace-free. -/
theorem charStrip_not_space (l : List Char) (h : ∀ c ∈ l, isPySpace c = false) :
    ∀ d ∈ charStrip l, isPySpace d = false := by
  intro d hd
  simp only [charStrip, List.mem_filter, List.mem_flatMap] at hd
  obtain ⟨⟨c, hc, hdc⟩, _⟩ := hd
  exact nfkdChar_not_space c (h c hc) d hdc

/-- `str.strip()` is the identity on lists with non-whitespace ends. -/
theorem stripChars_eq_self (l : List Char)
    (hh : ∀ c, l.head? = some c → isPySpace c = false)
    (hl : ∀ c, l.getLast? = some c → isPySpace c = false) :
    stripChars l = l := by
  have h1 : l.dropWhile isPySpace = l := by
    cases l with
    | nil => rfl
    | cons c rest =>
        rw [List.dropWhile_cons, if_neg]
        simp [hh c rfl]
  have h2 : l.reverse.dropWhile isPySpace = l.reverse := by
    cases hr : l.reverse with
    | nil => rfl
    | cons c rest =>
        rw [List.dropWhile_cons, if_neg]
        have : l.getLast? = some c := by
          rw [← List.head?_reverse, hr]; rfl
        simp [hl c this]
  rw [stripChars, h1, h2, List.reverse_reverse]

/-- A space-join headed by a non-empty token is non-empty. -/
theorem joinChars_cons_ne_nil (t : List Char) (rest : List (List Char))
    (ht : t ≠ []) : joinChars (t :: rest) ≠ [] := by
  cases rest with
  | nil => exact ht
  | cons u r => simp [joinChars]

/-- The head of a space-join is the head of its first token. -/
theorem joinChars_head (t : List Char) (rest : List (List Char)) (ht : t ≠ []) :
    (joinChars (t :: rest)).head? = t.head? := by
  cases rest with
  | nil => rfl
  | cons u r => exact List.head?_append_of_ne_nil t ht

/-- The last element of a space-join is the last element of its last
token, provided all tokens are non-empty. -/
theorem joinChars_getLast : ∀ (ts : List (List Char)) (t : List Char),
    (∀ x ∈ ts, x ≠ []) → ts.getLast? = some t →
    (joinChars ts).getLast? = t.getLast?
  | [], t, _, hlast => by cases hlast
  | [x], t, _, hlast => by
      simp only [List.getLast?_singleton, Option.some.injEq] at hlast
      rw [← hlast]; rfl
  | x :: u :: rest, t, hne, hlast => by
      rw [List.getLast?_cons_cons] at hlast
      have hJ : joinChars (u :: rest) ≠ [] :=
        joinChars_cons_ne_nil u rest (hne u (by simp))
      have ih : (joinChars (u :: rest)).getLast? = t.getLast? :=
        joinChars_getLast (u :: rest) t (fun x hx => hne x (List.mem_cons_of_mem _ hx))
          hlast
      show (x ++ ' ' :: joinChars (u :: rest)).getLast? = t.getLast?
      rw [List.getLast?_append_of_ne_nil x (by simp)]
      cases hJ2 : joinChars (u :: rest) with
      | nil => exact absurd hJ2 hJ
      | cons j J2 =>
          rw [List.getLast?_cons_cons, ← hJ2, ih]

/-- `str.strip()` is the identity on a space-join of non-empty
whitespace-free tokens. -/
theorem stripChars_joinChars (ts : List (List Char)) (hne : ts ≠ [])
    (htok : ∀ t ∈ ts, t ≠ [] ∧ ∀ c ∈ t, isPySpace c = false) :
    stripChars (joinChars ts) = joinChars ts := by
  cases ts with
  | nil => exact absurd rfl hne
  | cons t0 ts2 =>
      refine stripChars_eq_self _ ?_ ?_
      · intro c hc
        obtain ⟨ht0, hws0⟩ := htok t0 (by simp)
        rw [joinChars_head t0 ts2 ht0] at hc
        exact hws0 c (List.mem_of_mem_head? hc)
      · intro c hc
        obtain ⟨tl, htl⟩ : ∃ tl, (t0 :: ts2).getLast? = some tl := by
          cases hx : (t0 :: ts2).getLast? with
          | none => simp [List.getLast?_eq_none_iff] at hx
          | some a => exact ⟨a, rfl⟩
        obtain ⟨htlne, hwstl⟩ := htok tl (List.mem_of_mem_getLast? htl)
        rw [joinChars_getLast (t0 :: ts2) tl (fun x hx => (htok x hx).1) htl] at hc
        exact hwstl c (List.mem_of_mem_getLast? hc)

/-- Reading a run of non-whitespace characters accumulates them in
reverse onto the accumulator. -/
theorem wsTokensAux_accum : ∀ (t rest acc : List Char),
    (∀ c ∈ t, isPySpace c = false) →
    wsTokensAux (t ++ rest) acc = wsTokensAux rest (t.reverse ++ acc)
  | [], rest, acc, _ => by simp
  | c :: t, rest, acc, h => by
      have hc : isPySpace c = false := h c (by simp)
      show wsTokensAux (c :: (t ++ rest)) acc = _
      rw [wsTokensAux, if_neg (by simp [hc])]
      rw [wsTokensAux_accum t rest (c :: acc) (fun d hd => h d (by simp [hd]))]
      simp

/-- Splitting on whitespace undoes the space-join of non-empty
whitespace-free tokens. -/
theorem wsTokens_joinChars : ∀ ts : List (List Char),
    (∀ t ∈ ts, t ≠ [] ∧ ∀ c ∈ t, isPySpace c = false) →
    wsTokens (joinChars ts) = ts
  | [], _ => rfl
  | [t], h => by
      obtain ⟨ht, hws⟩ := h t (by simp)
      have h1 : wsTokensAux (t ++ []) [] = wsTokensAux [] (t.reverse ++ []) :=
        wsTokensAux_accum t [] [] hws

      rw [List.append_nil, List.append_nil] at h1
      have hrev : t.reverse.isEmpty = false := by
        cases t with
        | nil => exact absurd rfl ht
        | cons c t2 => simp
      show wsTokensAux t [] = [t]
      rw [h1]
      show (if t.reverse.isEmpty then [] else [t.reverse.reverse]) = [t]
      simp [hrev]
  | t :: u :: rest, h => by
      obtain ⟨ht, hws⟩ := h t (by simp)
      have hrev : t.reverse.isEmpty = false := by
        cases t with
        | nil => exact absurd rfl ht
        | cons c t2 => simp
      have hsp : isPySpace ' ' = true := by decide
      show wsTokensAux (t ++ ' ' :: joinChars (u :: rest)) [] = t :: u :: rest
      rw [wsTokensAux_accum t _ [] hws, List.append_nil]
      rw [wsTokensAux, if_pos hsp, if_neg (by simp [hrev])]
      rw [show wsTokensAux (joinChars (u :: rest)) []
          = wsTokens (joinChars (u :: rest)) from rfl,
        wsTokens_joinChars (u :: rest) (fun x hx => h x (List.mem_cons_of_mem _ hx))]
      simp

/-- A string is empty iff its character list is. -/
theorem string_eq_empty_iff (s : String) : s = "" ↔ s.toList = [] := by
  constructor
  · intro h; rw [h]; rfl
  · intro h
    cases s with
    | mk data => cases data with
      | nil => rfl
      | cons c cs => simp at h

/-- C8: on any whitespace-free syllable list whose syllables survive
diacritic stripping non-empty, `pinyin_mask` of the space-joined string
strips diacritics, splits on whitespace, and joins the syllables back
with single spaces, each syllable replaced by the first character of its
stripped form followed by an underscore; on the empty string it returns
the empty string. -/
theorem claim_C8 (syls : List String)
    (hws : ∀ s ∈ syls, ∀ c ∈ s.toList, isPySpace c = false)
    (hne : ∀ s ∈ syls, strip_diacritics s ≠ "") :
    pinyin_mask (joinWith " " syls)
      = joinWith " " (syls.map (fun s => maskToken (strip_diacritics s).toList))
    ∧ pinyin_mask "" = "" := by
  refine ⟨?_, rfl⟩
  cases syls with
  | nil => rfl
  | cons s0 srest =>
      have htok : ∀ s ∈ s0 :: srest, charStrip s.toList ≠ [] ∧
          ∀ c ∈ charStrip s.toList, isPySpace c = false := by
        intro s hs
        refine ⟨?_, charStrip_not_space s.toList (hws s hs)⟩
        intro h0
        exact hne s hs (by rw [strip_diacritics, h0])
      have htok2 : ∀ t ∈ ((s0 :: srest).map String.toList).map charStrip,
          t ≠ [] ∧ ∀ c ∈ t, isPySpace c = false := by
        intro t htm
        simp only [List.map_map, List.mem_map, Function.comp] at htm
        obtain ⟨s, hs, rfl⟩ := htm
        exact htok s hs
      have hs0ne : s0.toList ≠ [] := by
        intro h0
        refine (htok s0 (by simp)).1 ?_
        rw [h0]; rfl
      have hpne : joinWith " " (s0 :: srest) ≠ "" := by
        intro h0
        rw [string_eq_empty_iff, joinWith_space_toList] at h0
        exact joinChars_cons_ne_nil _ _ hs0ne h0
      have hstrip : (strip_diacritics (joinWith " " (s0 :: srest))).toList
          = joinChars (((s0 :: srest).map String.toList).map charStrip) := by
        show charStrip (joinWith " " (s0 :: srest)).toList = _
        rw [joinWith_space_toList, charStrip_joinChars]
      have hkey : (pyStrip (strip_diacritics (joinWith " " (s0 :: srest)))).toList
          = joinChars (((s0 :: srest).map String.toList).map charStrip) := by
        show stripChars (strip_diacritics (joinWith " " (s0 :: srest))).toList = _
        rw [hstrip]
        exact stripChars_joinChars _ (by simp) htok2
      rw [pinyin_mask, if_neg hpne, hkey, wsTokens_joinChars _ htok2,
        List.map_map, List.map_map]
      rfl

/-- C8 (witness): the spec example, `pinyin_mask "xià yǔ" = "x_ y_"`,
together with the empty-string case. -/
theorem claim_C8_witness :
    pinyin_mask "xià yǔ" = "x_ y_" ∧ pinyin_mask "" = "" := by
  have h := claim_C8 ["xià", "yǔ"] (by decide) (by decide)
  refine ⟨?_, h.2⟩
  have h1 := h.1
  rw [show joinWith " " ["xià", "yǔ"] = "xià yǔ" from rfl] at h1
  rw [h1]
  rfl

end AnkiGen
